import Mathlib

/-!
# ipfans/metadata: a verification development

A shallow embedding of `metadata.go` (package `metadata`).

* `interface{}` values are `Value`; the untyped `nil` interface is `Value.nil`.
* `map[string]interface{}` is `GoMap`: the entries of the map, keys pairwise
  distinct, listed in the order in which a `range` over the map enumerates them.
  Go leaves that order unspecified, so statements quantify over every list.
* `*MetaData` is an address (`Ptr`) into a `Heap` of `MetaData` objects; an
  address outside the heap plays the role of the nil pointer.
* `sync.RWMutex` is `RWMutex`, the state of the lock as one goroutine sees it:
  a request that cannot be granted never returns (`Fault.deadlock`).
* the field `data` of a `MetaData` is `Option GoMap`: `none` is the nil map of the zero value
  `MetaData{}`, which reads as the empty map and panics when written.
* `strings.ToLower` applies `unicode.ToLower` rune by rune; the table of `unicode.ToLower`
  belongs to the Go library and is a parameter of the development (`RuneTable`): the general
  statements hold for every table, the examples at the end are evaluated on ASCII keys.
  A string is a sequence of runes (valid UTF-8).
* a panic is a `Fault`; every operation that can panic or block returns `Except Fault _`.
* `context.Context` is `Context`: the empty context or a context derived with
  `context.WithValue`; `ctx.Value(key)` finds the nearest entry under `key`.
-/

set_option autoImplicit false
set_option linter.unusedSectionVars false

namespace metadata

/-! ## Values and maps -/

/-- Dynamic values of type `interface{}`. -/
inductive Value where
  | nil
  | str (s : String)
  | int (n : Int)
  deriving DecidableEq

/-- Ways in which a call does not return normally. -/
inductive Fault where
  /-- Pairs: `panic(fmt.Sprintf("metadata: Pairs got the odd number of input pairs for metadata: %d", len(kv)))`. -/
  | oddPairs (n : Nat)
  /-- Failed type assertion `s.(string)`; carries the offending value. -/
  | notString (v : Value)
  /-- Nil pointer dereference. -/
  | nilDeref
  /-- The goroutine waits forever for a lock. -/
  | deadlock
  /-- Fatal error of `sync`: unlock of an unlocked mutex. -/
  | unlockOfUnlocked
  /-- Panic of the runtime: assignment to entry in nil map. -/
  | nilMapWrite
  deriving DecidableEq

deriving instance DecidableEq for Except

/-- The table of Go `unicode.ToLower`: the lower-case rune of every rune. The table is part of
the Go library, not of this package, so it is a parameter: every statement below holds for
every table. -/
class RuneTable where
  lower : Char → Char

section Generic

variable [RuneTable]

/-- Go `unicode.ToLower`. -/
def toLowerChar (c : Char) : Char := RuneTable.lower c

/-- Go `strings.ToLower`: `unicode.ToLower` applied to every rune of the string. -/
def ToLower (s : String) : String := String.mk (s.data.map toLowerChar)

/-- The table maps every rune to a rune that it leaves as it is, as the table of Unicode
does: lower-casing twice is lower-casing once. -/
def LowerIdempotent : Prop := ∀ c, toLowerChar (toLowerChar c) = toLowerChar c

/-- Go `map[string]interface{}`: entries in `range` order. -/
abbrev GoMap := List (String × Value)

namespace GoMap

/-- Keys in `range` order. -/
def keys (m : GoMap) : List String := m.map Prod.fst

/-- Go `v, ok := m[k]`. -/
def get? : GoMap → String → Option Value
  | [], _ => none
  | (k', v) :: t, k => if k' = k then some v else get? t k

/-- Go `m[k]` (the zero value `nil` when the key is absent). -/
def index (m : GoMap) (k : String) : Value := (m.get? k).getD Value.nil

/-- Go `m[k] = v`. -/
def put : GoMap → String → Value → GoMap
  | [], k, v => [(k, v)]
  | (k', v') :: t, k, v => if k' = k then (k, v) :: t else (k', v') :: put t k v

/-- Go `len(m)`. -/
def len (m : GoMap) : Nat := m.length

end GoMap

/-! ## Locks, objects, heap -/

/-- State of a `sync.RWMutex`: number of read locks held and whether the write lock is held. -/
structure RWMutex where
  readers : Nat
  writer : Bool
  deriving DecidableEq

namespace RWMutex

/-- The zero value: an unlocked mutex. -/
def zero : RWMutex := { readers := 0, writer := false }

/-- Method `RLock`: granted unless the write lock is held. -/
def RLock (l : RWMutex) : Except Fault RWMutex :=
  if l.writer then Except.error Fault.deadlock
  else Except.ok { l with readers := l.readers + 1 }

/-- Method `RUnlock`: undoes one `RLock`. -/
def RUnlock (l : RWMutex) : Except Fault RWMutex :=
  if l.readers = 0 then Except.error Fault.unlockOfUnlocked
  else Except.ok { l with readers := l.readers - 1 }

/-- Method `Lock`: granted only when nobody holds the lock for reading or writing. -/
def Lock (l : RWMutex) : Except Fault RWMutex :=
  if l.writer ∨ l.readers ≠ 0 then Except.error Fault.deadlock
  else Except.ok { l with writer := true }

/-- Method `Unlock`: releases the write lock. -/
def Unlock (l : RWMutex) : Except Fault RWMutex :=
  if l.writer then Except.ok { l with writer := false }
  else Except.error Fault.unlockOfUnlocked

end RWMutex

/-- The struct `MetaData`. The field `data` is `none` for the nil map, which is what the zero
value `MetaData{}` holds, and `some m` for a map made with `map[string]interface{}{}`. -/
structure MetaData where
  locker : RWMutex
  data : Option GoMap
  deriving DecidableEq

/-- What a read of `md.data` sees. A nil map reads as the empty map: `m[k]` is the zero value,
`len(m)` is `0` and `range m` makes no iteration. -/
def MetaData.entries (o : MetaData) : GoMap := o.data.getD []

/-- The zero value `MetaData{}`: an unlocked mutex and a nil map. -/
def MetaData.zeroValue : MetaData := { locker := RWMutex.zero, data := none }

/-- A `*MetaData`. -/
abbrev Ptr := Nat

/-- The `MetaData` objects allocated so far, by address. -/
abbrev Heap := List MetaData

namespace Heap

/-- Dereference of a `*MetaData`. -/
def deref (h : Heap) (p : Ptr) : Except Fault MetaData :=
  match h[p]? with
  | some md => Except.ok md
  | none => Except.error Fault.nilDeref

/-- Allocation `&MetaData{...}`: the object goes to the first unused address. -/
def alloc (h : Heap) (md : MetaData) : Ptr × Heap := (h.length, h ++ [md])

/-- The call `p.locker.f()` for one of the four lock methods `f`. -/
def withLocker (f : RWMutex → Except Fault RWMutex) (h : Heap) (p : Ptr) : Except Fault Heap := do
  let md ← h.deref p
  let l ← f md.locker
  pure (h.set p { md with locker := l })

/-- The assignment `p.data[k] = v`; on a nil map it panics. -/
def putData (h : Heap) (p : Ptr) (k : String) (v : Value) : Except Fault Heap := do
  let md ← h.deref p
  match md.data with
  | none => Except.error Fault.nilMapWrite
  | some m => pure (h.set p { md with data := some (m.put k v) })

end Heap

/-! ## The functions of `metadata.go` -/

/-- Body of the loop of `New`: `key := strings.ToLower(k); md.data[key] = val`. -/
def newLoop : GoMap → GoMap → GoMap
  | data, [] => data
  | data, (k, val) :: rest => newLoop (data.put (ToLower k) val) rest

/-- Go `New`. The result object is private to the call until it is returned, so its
`data` is accumulated first and the object is placed on the heap at the end. -/
def New (h : Heap) (m : GoMap) : Ptr × Heap :=
  h.alloc { locker := RWMutex.zero, data := some (newLoop [] m) }

/-- The loop `for i, s := range kv` of `Pairs`, from index `i` on. -/
def pairsLoop : Nat → String → GoMap → List Value → Except Fault GoMap
  | _, _, data, [] => Except.ok data
  | i, key, data, s :: rest =>
    if i % 2 = 0 then
      match s with
      | Value.str x => pairsLoop (i + 1) (ToLower x) data rest
      | v => Except.error (Fault.notString v)
    else pairsLoop (i + 1) key (data.put key s) rest

/-- Go `Pairs`. -/
def Pairs (h : Heap) (kv : List Value) : Except Fault (Ptr × Heap) :=
  if kv.length % 2 = 1 then Except.error (Fault.oddPairs kv.length)
  else do
    let data ← pairsLoop 0 "" [] kv
    pure (h.alloc { locker := RWMutex.zero, data := some data })

/-- Go `(*MetaData).Len`. -/
def MetaData.Len (h : Heap) (md : Ptr) : Except Fault Nat := do
  let o ← h.deref md
  pure o.entries.len

/-- Go `(*MetaData).Get`. -/
def MetaData.Get (h : Heap) (md : Ptr) (k : String) : Except Fault (Value × Heap) := do
  let k := ToLower k
  let h ← h.withLocker RWMutex.RLock md
  let o ← h.deref md
  let v := o.entries.index k
  let h ← h.withLocker RWMutex.RUnlock md
  pure (v, h)

/-- Go `(*MetaData).Set`. -/
def MetaData.Set (h : Heap) (md : Ptr) (k : String) (val : Value) : Except Fault Heap :=
  if val = Value.nil then pure h
  else do
    let k := ToLower k
    let h ← h.withLocker RWMutex.Lock md
    let h ← h.putData md k val
    h.withLocker RWMutex.Unlock md

/-- Inner loop of `Join`: `for k := range md.data { out.data[k] = md.Get(k) }`. -/
def joinKeys (md : Ptr) : List String → GoMap → Heap → Except Fault (GoMap × Heap)
  | [], out, h => pure (out, h)
  | k :: ks, out, h => do
    let (v, h) ← MetaData.Get h md k
    joinKeys md ks (out.put k v) h

/-- Outer loop of `Join`: `for _, md := range mds`. -/
def joinLoop : List Ptr → GoMap → Heap → Except Fault (GoMap × Heap)
  | [], out, h => pure (out, h)
  | md :: mds, out, h => do
    let h ← h.withLocker RWMutex.RLock md
    let o ← h.deref md
    let (out, h) ← joinKeys md o.entries.keys out h
    let h ← h.withLocker RWMutex.RUnlock md
    joinLoop mds out h

/-- Go `Join`. As in `New`, the fresh object `out` is placed on the heap when it is returned. -/
def Join (h : Heap) (mds : List Ptr) : Except Fault (Ptr × Heap) := do
  let (out, h) ← joinLoop mds [] h
  pure (h.alloc { locker := RWMutex.zero, data := some out })

/-- Go `(*MetaData).Copy`. -/
def MetaData.Copy (h : Heap) (md : Ptr) : Except Fault (Ptr × Heap) :=
  Join h [md]

/-- Inner loop of `Merge`: `for k := range mds[i].data { md.Set(k, mds[i].data[k]) }`. -/
def mergeKeys (md src : Ptr) : List String → Heap → Except Fault Heap
  | [], h => pure h
  | k :: ks, h => do
    let s ← h.deref src
    let h ← MetaData.Set h md k (s.entries.index k)
    mergeKeys md src ks h

/-- Outer loop of `Merge`: `for i := range mds`. -/
def mergeLoop (md : Ptr) : List Ptr → Heap → Except Fault Heap
  | [], h => pure h
  | src :: rest, h => do
    let h ← h.withLocker RWMutex.RLock src
    let s ← h.deref src
    let h ← mergeKeys md src s.entries.keys h
    let h ← h.withLocker RWMutex.RUnlock src
    mergeLoop md rest h

/-- Go `(*MetaData).Merge`. -/
def MetaData.Merge (h : Heap) (md : Ptr) (mds : List Ptr) : Except Fault Heap :=
  if mds.length = 0 then pure h
  else mergeLoop md mds h

/-! ## Vocabulary of the statements -/

/-- Lower-case key invariant: every stored key is its own lower-casing. -/
def GoMap.LowerKeys (m : GoMap) : Prop := ∀ k ∈ m.keys, k = ToLower k

/-- Every stored key is the lower-casing of some string. -/
def GoMap.LoweredKeys (m : GoMap) : Prop := ∀ k ∈ m.keys, ∃ k₀, k = ToLower k₀

/-- No-nil invariant: no key is associated with `nil`. -/
def GoMap.NoNil (m : GoMap) : Prop := ∀ e ∈ m, e.2 ≠ Value.nil

/-- Whether the dynamic type of a value is `string`, i.e. whether `s.(string)` succeeds. -/
def Value.isString : Value → Bool
  | Value.str _ => true
  | _ => false

/-- The argument list `k1, v1, k2, v2, ...` made of the given (key, value) pairs. -/
def flatPairs : List (String × Value) → List Value
  | [] => []
  | (k, v) :: ps => Value.str k :: v :: flatPairs ps

/-- Lower-casing of a value standing at a key position, if it is a string. -/
def Value.lowerKey : Value → List String
  | Value.str k => [ToLower k]
  | _ => []

/-- The lower-cased keys found at the key positions (even indices) of an argument list. -/
def keysOf : List Value → List String
  | s :: _ :: rest => s.lowerKey ++ keysOf rest
  | _ => []

/-- The address holds an object whose write lock is not held: its read lock can be taken. -/
def Heap.Readable (h : Heap) (p : Ptr) : Prop := ∃ o, h[p]? = some o ∧ o.locker.writer = false

/-- What `Join` copies out of one source map `src` into `out`, key by key:
`out[k] = src[ToLower(k)]` (the value `Get(k)` returns). -/
def joinFrom (src : GoMap) : List String → GoMap → GoMap
  | [], out => out
  | k :: ks, out => joinFrom src ks (out.put k (src.index (ToLower k)))

/-- The map `Join` builds from the sources at the given addresses, starting from `out`. -/
def joinData (h : Heap) : List Ptr → GoMap → GoMap
  | [], out => out
  | md :: mds, out =>
    match h[md]? with
    | some o => joinData h mds (joinFrom o.entries o.entries.keys out)
    | none => out

/-- What `Merge` writes into the map `d` of the receiver from one source map `src`, key by key:
`Set(k, src[k])`, which skips a `nil` value. -/
def mergeFrom (src : GoMap) : List String → GoMap → GoMap
  | [], d => d
  | k :: ks, d =>
    mergeFrom src ks (if src.index k = Value.nil then d else d.put (ToLower k) (src.index k))

/-- The map of the receiver after `Merge` with the sources at the given addresses. -/
def mergeData (h : Heap) : List Ptr → GoMap → GoMap
  | [], d => d
  | s :: rest, d =>
    match h[s]? with
    | some o => mergeData h rest (mergeFrom o.entries o.entries.keys d)
    | none => d

/-- One call of the API made by a client program. -/
inductive Call where
  | new (m : GoMap)
  | pairs (kv : List Value)
  | join (mds : List Ptr)
  | copy (md : Ptr)
  | set (md : Ptr) (k : String) (val : Value)
  | merge (md : Ptr) (mds : List Ptr)

/-- Heap after one call (the returned pointer, if any, is `h.length`, the new address). -/
def Call.run : Call → Heap → Except Fault Heap
  | Call.new m, h => pure (New h m).2
  | Call.pairs kv, h => do
    let r ← Pairs h kv
    pure r.2
  | Call.join mds, h => do
    let r ← Join h mds
    pure r.2
  | Call.copy md, h => do
    let r ← MetaData.Copy h md
    pure r.2
  | Call.set md k val, h => MetaData.Set h md k val
  | Call.merge md mds, h => MetaData.Merge h md mds

/-- Heap after a sequence of calls; a panic or a deadlock ends the program. -/
def runCalls : List Call → Heap → Except Fault Heap
  | [], h => pure h
  | c :: cs, h => do
    let h ← c.run h
    runCalls cs h

/-- Every object of the heap has a map with the property `P`. -/
def Heap.AllData (P : GoMap → Prop) (h : Heap) : Prop := ∀ o ∈ h, P o.entries

instance (m : GoMap) : Decidable m.LowerKeys := by
  unfold GoMap.LowerKeys
  infer_instance

instance (m : GoMap) : Decidable m.NoNil := by
  unfold GoMap.NoNil
  infer_instance

/-! ## Example programs and heaps -/

/-- The rows of the table for the ASCII runes: `A`-`Z` go to `a`-`z`. On a string of ASCII
runes `strings.ToLower` consults no other row, so with this table the definitions evaluate, on
examples whose keys are ASCII, to what the program computes. -/
instance asciiTable : RuneTable := { lower := Char.toLower }

/-- The ASCII rows and one more row of the table of Unicode: `É` goes to `é`. -/
def latinTable : RuneTable := { lower := fun c => if c = 'É' then 'é' else Char.toLower c }

/-- A program that makes each kind of call, with mixed-case keys and `nil` values. -/
def mixedCaseProgram : List Call :=
  [Call.pairs [Value.str "Foo", Value.int 1, Value.str "BAR", Value.nil],
   Call.new [("Baz", Value.str "x")],
   Call.join [0, 1],
   Call.set 2 "QUX" (Value.int 3),
   Call.merge 0 [1, 2],
   Call.copy 0]

/-- The heap `mixedCaseProgram` ends with. -/
def mixedCaseHeap : Heap :=
  [{ locker := RWMutex.zero,
     data := some [("foo", Value.int 1), ("bar", Value.nil), ("baz", Value.str "x"),
       ("qux", Value.int 3)] },
   { locker := RWMutex.zero, data := some [("baz", Value.str "x")] },
   { locker := RWMutex.zero,
     data := some [("foo", Value.int 1), ("bar", Value.nil), ("baz", Value.str "x"),
       ("qux", Value.int 3)] },
   { locker := RWMutex.zero,
     data := some [("foo", Value.int 1), ("bar", Value.nil), ("baz", Value.str "x"),
       ("qux", Value.int 3)] }]

/-- Heap of the `TestSet` kind: one object built by `Pairs("My-Optional-Header", "42", "other-key", "999")`. -/
def testSetHeap : Heap :=
  [{ locker := RWMutex.zero,
     data := some [("my-optional-header", Value.str "42"), ("other-key", Value.str "999")] }]

/-- Heap of the `TestGet` kind: one object built by `Pairs("Header", "44", "other", "1")`. -/
def testGetHeap : Heap :=
  [{ locker := RWMutex.zero, data := some [("header", Value.str "44"), ("other", Value.str "1")] }]

/-- Heap of the `TestJoin` kind: `Pairs("foo", "bar")`, `Pairs("foo", "baz")`, `Pairs("zip", nil)`. -/
def testJoinHeap : Heap :=
  [{ locker := RWMutex.zero, data := some [("foo", Value.str "bar")] },
   { locker := RWMutex.zero, data := some [("foo", Value.str "baz")] },
   { locker := RWMutex.zero, data := some [("zip", Value.nil)] }]

/-- Heap of the `TestMerge` kind: the receiver `Pairs("key", "val")` and the sources
`Pairs("key", "newVal")` and `Pairs("key", nil)`. -/
def testMergeHeap : Heap :=
  [{ locker := RWMutex.zero, data := some [("key", Value.str "val")] },
   { locker := RWMutex.zero, data := some [("key", Value.str "newVal")] },
   { locker := RWMutex.zero, data := some [("key", Value.nil)] }]

/-- Heap after `Pairs("key", "val")` and `Pairs("key", nil)`. -/
def mergeNilHeap : Heap :=
  [{ locker := RWMutex.zero, data := some [("key", Value.str "val")] },
   { locker := RWMutex.zero, data := some [("key", Value.nil)] }]

/-- Heap with the zero value `MetaData{}` alone: its map is nil. -/
def zeroValueHeap : Heap := [MetaData.zeroValue]

/-- Heap with the zero value `MetaData{}` and `Pairs("key", "val")`. -/
def zeroMergeHeap : Heap :=
  [MetaData.zeroValue, { locker := RWMutex.zero, data := some [("key", Value.str "val")] }]

/-- Heap with a receiver that holds the key `"foo"` and an object that holds the key `"Foo"`. -/
def caseMergeHeap : Heap :=
  [{ locker := RWMutex.zero, data := some [("foo", Value.int 1)] },
   { locker := RWMutex.zero, data := some [("Foo", Value.int 2)] }]

/-! ## Contexts -/

/-- Keys under which values are attached to a context: the key `mdContextKey{}`, private to this
package, or a key of another package. -/
inductive CtxKey where
  | mdContextKey
  | other (n : Nat)
  deriving DecidableEq

/-- Values attached to a context: a `*MetaData`, or a value of another dynamic type. -/
inductive CtxVal where
  | md (p : Ptr)
  | other (v : Value)
  deriving DecidableEq

/-- Go `context.Context`, as far as values are concerned: the empty context
(`context.Background()`, `context.TODO()`) or a context derived with `context.WithValue`. -/
inductive Context where
  | background
  | withValue (parent : Context) (key : CtxKey) (val : CtxVal)
  deriving DecidableEq

/-- Go `ctx.Value(key)`: the value attached under `key` nearest to `ctx`; `none` is `nil`. -/
def Context.Value : Context → CtxKey → Option CtxVal
  | Context.background, _ => none
  | Context.withValue parent key val, k => if key = k then some val else parent.Value k

/-- Go `NewContext`. -/
def NewContext (ctx : Context) (md : Ptr) : Context :=
  Context.withValue ctx CtxKey.mdContextKey (CtxVal.md md)

/-- Go `FromContext`: the type assertion `.(*MetaData)` in its two-result form. The nil pointer
it yields when the assertion fails is `none`. -/
def FromContext (ctx : Context) : Option Ptr × Bool :=
  match ctx.Value CtxKey.mdContextKey with
  | some (CtxVal.md p) => (some p, true)
  | _ => (none, false)

/-- Go `AppendToContext`. -/
def AppendToContext (h : Heap) (ctx : Context) (mds : List Ptr) : Except Fault (Context × Heap) :=
  if mds.length = 0 then pure (ctx, h)
  else do
    let (md, h) :=
      match ctx.Value CtxKey.mdContextKey with
      | some (CtxVal.md p) => (p, h)
      | _ => h.alloc { locker := RWMutex.zero, data := some [] }
    let newMDs := md :: mds
    let (newMD, h) ← Join h newMDs
    pure (Context.withValue ctx CtxKey.mdContextKey (CtxVal.md newMD), h)

/-- Something was attached under the key of this package to the context or to an ancestor. -/
def Context.attached : Context → Bool
  | Context.background => false
  | Context.withValue parent key _ => decide (key = CtxKey.mdContextKey) || parent.attached

/-- Equality of two maps as Go maps: every key has the same entry in both, whatever the order
in which the entries are enumerated. -/
def GoMap.SameData (m₁ m₂ : GoMap) : Prop := ∀ k, m₁.get? k = m₂.get? k

/-- Heap of the `TestCopy` kind: one object built by `Pairs("key", "val")`. -/
def testCopyHeap : Heap :=
  [{ locker := RWMutex.zero, data := some [("key", Value.str "val")] }]

/-- Heap with one object built by `Pairs("a", 1)`, for two writes in a row. -/
def twoSetsHeap : Heap :=
  [{ locker := RWMutex.zero, data := some [("a", Value.int 1)] }]

/-- Heap of the `TestFromContext` kind: one object built by `Pairs("foo", "bar")`. -/
def testContextHeap : Heap :=
  [{ locker := RWMutex.zero, data := some [("foo", Value.str "bar")] }]

/-- Heap of the `TestAppendToContext` kind: `Pairs("foo", "bar")`, attached to the context, and
`Pairs("foo", "baz")`, appended. -/
def testAppendHeap : Heap :=
  [{ locker := RWMutex.zero, data := some [("foo", Value.str "bar")] },
   { locker := RWMutex.zero, data := some [("foo", Value.str "baz")] }]

/-- A context that carries a value of another package and no `MetaData`. -/
def foreignContext : Context :=
  Context.withValue Context.background (CtxKey.other 7) (CtxVal.other (Value.str "trace-id"))

instance (h : Heap) (p : Ptr) : Decidable (h.Readable p) :=
  decidable_of_iff ((h[p]?.map fun o => o.locker.writer) = some false) (by
    unfold Heap.Readable
    cases h[p]? <;> simp)

/-- Heap with one object built by `Pairs("k", "v")`, to be merged into itself. -/
def selfMergeHeap : Heap :=
  [{ locker := RWMutex.zero, data := some [("k", Value.str "v")] }]

/-- Heap for a merge with two sources: the receiver `Pairs("own", 1, "shared", 2)` and the sources
`Pairs("shared", 3)` and `Pairs("extra", 4)`. -/
def mergeFrameHeap : Heap :=
  [{ locker := RWMutex.zero, data := some [("own", Value.int 1), ("shared", Value.int 2)] },
   { locker := RWMutex.zero, data := some [("shared", Value.int 3)] },
   { locker := RWMutex.zero, data := some [("extra", Value.int 4)] }]

/-- Heap for a join against copy-then-merge: `Pairs("a", 1, "b", 2)` and `Pairs("b", 3, "c", 4)`. -/
def joinMergeHeap : Heap :=
  [{ locker := RWMutex.zero, data := some [("a", Value.int 1), ("b", Value.int 2)] },
   { locker := RWMutex.zero, data := some [("b", Value.int 3), ("c", Value.int 4)] }]

/-- Heap for joins of three maps: `Pairs("x", 1, "y", 2)`, `Pairs("y", 3, "z", 4)` and
`Pairs("z", 5, "x", 6)`. -/
def joinAssocHeap : Heap :=
  [{ locker := RWMutex.zero, data := some [("x", Value.int 1), ("y", Value.int 2)] },
   { locker := RWMutex.zero, data := some [("y", Value.int 3), ("z", Value.int 4)] },
   { locker := RWMutex.zero, data := some [("z", Value.int 5), ("x", Value.int 6)] }]

/-! ## Lemmas: `ToLower` -/

theorem toNat_ofNat_of_lt (n : Nat) (h : n < 200) : (Char.ofNat n).toNat = n := by
  have hv : n.isValidChar := Or.inl (by omega)
  unfold Char.ofNat
  rw [dif_pos hv]
  simp [Char.ofNatAux, Char.toNat, UInt32.toNat]

theorem ToLower_idem (hidem : LowerIdempotent) (s : String) : ToLower (ToLower s) = ToLower s := by
  unfold ToLower
  simp only [List.map_map]
  congr 1
  apply List.map_congr_left
  intro c _
  exact hidem c

/-! ## Lemmas: maps -/

namespace GoMap

theorem get?_put_self (m : GoMap) (k : String) (v : Value) : (m.put k v).get? k = some v := by
  induction m with
  | nil => simp [put, get?]
  | cons e t ih =>
    obtain ⟨k', v'⟩ := e
    by_cases hk : k' = k
    · simp [put, get?, hk]
    · simp [put, get?, hk, ih]

theorem get?_put_ne (m : GoMap) (k k' : String) (v : Value) (hne : k' ≠ k) :
    (m.put k v).get? k' = m.get? k' := by
  induction m with
  | nil => simp [put, get?, Ne.symm hne]
  | cons e t ih =>
    obtain ⟨k₀, v₀⟩ := e
    by_cases hk : k₀ = k
    · subst hk
      simp [put, get?, Ne.symm hne]
    · simp [put, get?, hk, ih]

theorem mem_keys_put (m : GoMap) (k k' : String) (v : Value) :
    k' ∈ (m.put k v).keys ↔ k' = k ∨ k' ∈ m.keys := by
  induction m with
  | nil => simp [put, keys]
  | cons e t ih =>
    obtain ⟨k₀, v₀⟩ := e
    by_cases hk : k₀ = k
    · subst hk
      simp [put, keys]
    · simp only [keys] at ih
      simp [put, keys, hk, ih]
      tauto

theorem get?_eq_none_iff (m : GoMap) (k : String) : m.get? k = none ↔ k ∉ m.keys := by
  induction m with
  | nil => simp [get?, keys]
  | cons e t ih =>
    obtain ⟨k₀, v₀⟩ := e
    simp only [keys] at ih
    by_cases hk : k₀ = k
    · simp [get?, keys, hk]
    · simp [get?, keys, hk, ih, Ne.symm hk]

theorem mem_keys_iff (m : GoMap) (k : String) : k ∈ m.keys ↔ ∃ v, m.get? k = some v := by
  induction m with
  | nil => simp [get?, keys]
  | cons e t ih =>
    obtain ⟨k₀, v₀⟩ := e
    simp only [keys] at ih
    by_cases hk : k₀ = k
    · simp [get?, keys, hk]
    · simp [get?, keys, hk, ih, Ne.symm hk]

theorem length_put (m : GoMap) (k : String) (v : Value) :
    (m.put k v).length = if k ∈ m.keys then m.length else m.length + 1 := by
  induction m with
  | nil => simp [put, keys]
  | cons e t ih =>
    obtain ⟨k₀, v₀⟩ := e
    simp only [keys] at ih
    by_cases hk : k₀ = k
    · simp [put, keys, hk]
    · by_cases hmem : k ∈ List.map Prod.fst t
      · simp [put, keys, hk, ih, Ne.symm hk, hmem]
      · simp [put, keys, hk, ih, Ne.symm hk, hmem]

theorem nodup_keys_put (m : GoMap) (k : String) (v : Value) (hm : m.keys.Nodup) :
    (m.put k v).keys.Nodup := by
  induction m with
  | nil => simp [put, keys]
  | cons e t ih =>
    obtain ⟨k₀, v₀⟩ := e
    have hmem := mem_keys_put t k k₀ v
    simp only [keys, List.map_cons, List.nodup_cons] at hm ih hmem ⊢
    by_cases hk : k₀ = k
    · subst hk
      simpa [put] using hm
    · simp only [put, hk, if_false, List.map_cons, List.nodup_cons]
      refine ⟨?_, ih hm.2⟩
      rw [hmem]
      simp [hk, hm.1]

theorem mem_put (m : GoMap) (k : String) (v : Value) (e : String × Value) (he : e ∈ m.put k v) :
    e = (k, v) ∨ e ∈ m := by
  induction m with
  | nil => simpa [put] using he
  | cons e₀ t ih =>
    obtain ⟨k₀, v₀⟩ := e₀
    by_cases hk : k₀ = k
    · simp only [put, hk, if_true, List.mem_cons] at he ⊢
      tauto
    · simp only [put, hk, if_false, List.mem_cons] at he ⊢
      rcases he with he | he
      · tauto
      · have := ih he
        tauto

theorem get?_mem (m : GoMap) (k : String) (v : Value) (hg : m.get? k = some v) : (k, v) ∈ m := by
  induction m with
  | nil => simp [get?] at hg
  | cons e t ih =>
    obtain ⟨k₀, v₀⟩ := e
    by_cases hk : k₀ = k
    · simp [get?, hk] at hg
      simp [hk, hg]
    · simp [get?, hk] at hg
      simp [ih hg]

end GoMap

/-! ## Lemmas: heap and locks -/

namespace Heap

theorem set_self (h : Heap) (p : Ptr) (md : MetaData) (hp : h[p]? = some md) : h.set p md = h := by
  apply List.ext_getElem? 
  intro i
  by_cases hi : p = i
  · subst hi
    rw [List.getElem?_set_self', hp]
    rfl
  · rw [List.getElem?_set_ne hi]

theorem lt_of_get {h : Heap} {p : Ptr} {md : MetaData} (hp : h[p]? = some md) : p < h.length := by
  rcases List.getElem?_eq_some.mp hp with ⟨hlt, _⟩
  exact hlt

theorem get_set_self {h : Heap} {p : Ptr} {md : MetaData} (x : MetaData) (hp : h[p]? = some md) :
    (h.set p x)[p]? = some x :=
  List.getElem?_set_self (lt_of_get hp)

theorem deref_of_get {h : Heap} {p : Ptr} {md : MetaData} (hp : h[p]? = some md) :
    h.deref p = Except.ok md := by
  simp [deref, hp]

theorem deref_of_none {h : Heap} {p : Ptr} (hp : h[p]? = none) :
    h.deref p = Except.error Fault.nilDeref := by
  simp [deref, hp]

theorem withLocker_of_get {h : Heap} {p : Ptr} {md : MetaData} (f : RWMutex → Except Fault RWMutex)
    (l : RWMutex) (hp : h[p]? = some md) (hf : f md.locker = Except.ok l) :
    h.withLocker f p = Except.ok (h.set p { md with locker := l }) := by
  simp [withLocker, deref_of_get hp, hf, bind, Except.bind, pure, Except.pure]

theorem withLocker_of_error {h : Heap} {p : Ptr} {md : MetaData} (f : RWMutex → Except Fault RWMutex)
    (e : Fault) (hp : h[p]? = some md) (hf : f md.locker = Except.error e) :
    h.withLocker f p = Except.error e := by
  simp [withLocker, deref_of_get hp, hf, bind, Except.bind]

theorem withLocker_of_none {h : Heap} {p : Ptr} (f : RWMutex → Except Fault RWMutex)
    (hp : h[p]? = none) : h.withLocker f p = Except.error Fault.nilDeref := by
  simp [withLocker, deref_of_none hp, bind, Except.bind]

theorem putData_of_get {g : Heap} {p : Ptr} {o : MetaData} {d : GoMap} (k : String) (v : Value)
    (hp : g[p]? = some o) (hd : o.data = some d) :
    g.putData p k v = Except.ok (g.set p { o with data := some (d.put k v) }) := by
  simp only [putData, deref_of_get hp, bind, Except.bind, hd, pure, Except.pure]

theorem putData_of_nil {g : Heap} {p : Ptr} {o : MetaData} (k : String) (v : Value)
    (hp : g[p]? = some o) (hd : o.data = none) :
    g.putData p k v = Except.error Fault.nilMapWrite := by
  simp only [putData, deref_of_get hp, bind, Except.bind, hd]

end Heap

theorem MetaData.entries_mk (l : RWMutex) (d : GoMap) :
    MetaData.entries { locker := l, data := some d } = d := rfl

theorem MetaData.entries_of_data {o : MetaData} {d : GoMap} (hd : o.data = some d) :
    o.entries = d := by
  simp [MetaData.entries, hd]

theorem MetaData.entries_of_nil {o : MetaData} (hd : o.data = none) : o.entries = [] := by
  simp [MetaData.entries, hd]

theorem MetaData.data_eq_some_entries {o : MetaData} (hd : o.data ≠ none) :
    o.data = some o.entries := by
  cases hdd : o.data with
  | none => exact absurd hdd hd
  | some d => simp [MetaData.entries, hdd]

/-- Closed form of `Get` when the receiver is an object that is not write-locked. -/
theorem Get_of_get {h : Heap} {p : Ptr} {md : MetaData} (k : String) (hp : h[p]? = some md)
    (hw : md.locker.writer = false) :
    MetaData.Get h p k = Except.ok (md.entries.index (ToLower k), h) := by
  have h1 := Heap.withLocker_of_get RWMutex.RLock
    { md.locker with readers := md.locker.readers + 1 } hp (by simp [RWMutex.RLock, hw])
  have hp1 := Heap.get_set_self
    { md with locker := { md.locker with readers := md.locker.readers + 1 } } hp
  have h2 := Heap.withLocker_of_get RWMutex.RUnlock md.locker hp1 (by simp [RWMutex.RUnlock])
  simp only [MetaData.Get, h1, bind, Except.bind, Heap.deref_of_get hp1, h2, pure, Except.pure,
    List.set_set, MetaData.entries]
  rw [Heap.set_self h p _ hp]

/-- On a write-locked receiver `Get` never returns. -/
theorem Get_of_writer {h : Heap} {p : Ptr} {md : MetaData} (k : String) (hp : h[p]? = some md)
    (hw : md.locker.writer = true) : MetaData.Get h p k = Except.error Fault.deadlock := by
  have h1 := Heap.withLocker_of_error RWMutex.RLock Fault.deadlock hp (by simp [RWMutex.RLock, hw])
  simp [MetaData.Get, h1, bind, Except.bind]

theorem Get_of_none {h : Heap} {p : Ptr} (k : String) (hp : h[p]? = none) :
    MetaData.Get h p k = Except.error Fault.nilDeref := by
  simp [MetaData.Get, Heap.withLocker_of_none _ hp, bind, Except.bind]

/-- A `Get` that returns leaves the heap as it was and returns the indexed value. -/
theorem Get_ok_inv {h h' : Heap} {p : Ptr} {k : String} {v : Value}
    (hg : MetaData.Get h p k = Except.ok (v, h')) :
    h' = h ∧ ∃ md, h[p]? = some md ∧ v = md.entries.index (ToLower k) := by
  cases hp : h[p]? with
  | none => rw [Get_of_none k hp] at hg; cases hg
  | some md =>
    cases hw : md.locker.writer with
    | true => rw [Get_of_writer k hp hw] at hg; cases hg
    | false =>
      rw [Get_of_get k hp hw] at hg
      cases hg
      exact ⟨rfl, md, rfl, rfl⟩

/-- Closed form of `Set` with a non-nil value on an unlocked object whose map is not nil. -/
theorem Set_of_get {h : Heap} {p : Ptr} {md : MetaData} (k : String) {v : Value}
    (hp : h[p]? = some md) (hl : md.locker = RWMutex.zero) (hd : md.data ≠ none)
    (hv : v ≠ Value.nil) :
    MetaData.Set h p k v
      = Except.ok (h.set p { md with data := some (md.entries.put (ToLower k) v) }) := by
  have hde := MetaData.data_eq_some_entries hd
  have h1 := Heap.withLocker_of_get RWMutex.Lock
    { md.locker with writer := true } hp (by simp [RWMutex.Lock, hl, RWMutex.zero])
  have hp1 := Heap.get_set_self { md with locker := { md.locker with writer := true } } hp
  have hp2 := Heap.get_set_self
    { locker := { md.locker with writer := true },
      data := some (md.entries.put (ToLower k) v) } hp1
  have h3 := Heap.withLocker_of_get RWMutex.Unlock md.locker hp2
    (by simp [RWMutex.Unlock, hl, RWMutex.zero])
  simp only [MetaData.Set, hv, if_false, h1, bind, Except.bind,
    Heap.putData_of_get (ToLower k) v hp1 hde, List.set_set]
  simpa [List.set_set] using h3

/-- With a non-nil value, `Set` on an unlocked object whose map is nil panics at the
assignment `md.data[k] = val`. -/
theorem Set_of_nilMap {h : Heap} {p : Ptr} {md : MetaData} (k : String) {v : Value}
    (hp : h[p]? = some md) (hl : md.locker = RWMutex.zero) (hd : md.data = none)
    (hv : v ≠ Value.nil) :
    MetaData.Set h p k v = Except.error Fault.nilMapWrite := by
  have h1 := Heap.withLocker_of_get RWMutex.Lock
    { md.locker with writer := true } hp (by simp [RWMutex.Lock, hl, RWMutex.zero])
  have hp1 := Heap.get_set_self { md with locker := { md.locker with writer := true } } hp
  simp only [MetaData.Set, hv, if_false, h1, bind, Except.bind,
    Heap.putData_of_nil (ToLower k) v hp1 hd]

/-- With the value `nil`, `Set` returns at once. -/
theorem Set_nil (h : Heap) (p : Ptr) (k : String) : MetaData.Set h p k Value.nil = Except.ok h := by
  simp [MetaData.Set, pure, Except.pure]

/-- With a non-nil value, `Set` never returns when the lock of the receiver is held. -/
theorem Set_of_locked {h : Heap} {p : Ptr} {md : MetaData} (k : String) {v : Value}
    (hp : h[p]? = some md) (hl : md.locker.writer = true ∨ md.locker.readers ≠ 0) (hv : v ≠ Value.nil) :
    MetaData.Set h p k v = Except.error Fault.deadlock := by
  have h1 := Heap.withLocker_of_error RWMutex.Lock Fault.deadlock hp (by simp [RWMutex.Lock, hl])
  simp [MetaData.Set, hv, h1, bind, Except.bind]

theorem Set_of_none {h : Heap} {p : Ptr} (k : String) {v : Value} (hp : h[p]? = none)
    (hv : v ≠ Value.nil) : MetaData.Set h p k v = Except.error Fault.nilDeref := by
  simp [MetaData.Set, hv, Heap.withLocker_of_none _ hp, bind, Except.bind]

/-- What a `Set` that returns has done. -/
theorem Set_ok_inv {h h' : Heap} {p : Ptr} {k : String} {v : Value}
    (hs : MetaData.Set h p k v = Except.ok h') :
    (v = Value.nil ∧ h' = h) ∨
    (v ≠ Value.nil ∧ ∃ md, h[p]? = some md ∧ md.locker = RWMutex.zero ∧ md.data ≠ none ∧
      h' = h.set p { md with data := some (md.entries.put (ToLower k) v) }) := by
  by_cases hv : v = Value.nil
  · subst hv
    rw [Set_nil] at hs
    cases hs
    exact Or.inl ⟨rfl, rfl⟩
  · right
    refine ⟨hv, ?_⟩
    cases hp : h[p]? with
    | none => rw [Set_of_none k hp hv] at hs; cases hs
    | some md =>
      by_cases hl : md.locker.writer = true ∨ md.locker.readers ≠ 0
      · rw [Set_of_locked k hp hl hv] at hs; cases hs
      · have hz : md.locker = RWMutex.zero := by
          cases hm : md.locker with
          | mk r w =>
            simp [hm] at hl
            simp [RWMutex.zero, hl]
        by_cases hd : md.data = none
        · rw [Set_of_nilMap k hp hz hd hv] at hs; cases hs
        · rw [Set_of_get k hp hz hd hv] at hs
          cases hs
          exact ⟨md, rfl, hz, hd, rfl⟩

/-! ## Lemmas: the loops of `New` and `Pairs` -/

theorem newLoop_append (data : GoMap) (a b : GoMap) :
    newLoop data (a ++ b) = newLoop (newLoop data a) b := by
  induction a generalizing data with
  | nil => rfl
  | cons e t ih =>
    obtain ⟨k, v⟩ := e
    simp [newLoop, ih]

theorem newLoop_get?_of_not_mem (data : GoMap) (ps : GoMap) (k : String)
    (hk : ∀ e ∈ ps, ToLower e.1 ≠ k) : (newLoop data ps).get? k = data.get? k := by
  induction ps generalizing data with
  | nil => rfl
  | cons e t ih =>
    obtain ⟨k₀, v₀⟩ := e
    simp only [newLoop]
    rw [ih _ (fun e he => hk e (List.mem_cons_of_mem _ he))]
    exact GoMap.get?_put_ne _ _ _ _ (Ne.symm (hk (k₀, v₀) (List.mem_cons_self _ _)))

/-- The last pair written under a lower-cased key decides its value. -/
theorem newLoop_get?_last (data : GoMap) (pre post : GoMap) (k : String) (v : Value)
    (hpost : ∀ e ∈ post, ToLower e.1 ≠ ToLower k) :
    (newLoop data (pre ++ (k, v) :: post)).get? (ToLower k) = some v := by
  rw [newLoop_append]
  simp only [newLoop]
  rw [newLoop_get?_of_not_mem _ _ _ hpost]
  exact GoMap.get?_put_self _ _ _

theorem newLoop_mem_keys (data : GoMap) (ps : GoMap) (k : String) :
    k ∈ (newLoop data ps).keys ↔ k ∈ data.keys ∨ k ∈ ps.map (fun e => ToLower e.1) := by
  induction ps generalizing data with
  | nil => simp [newLoop]
  | cons e t ih =>
    obtain ⟨k₀, v₀⟩ := e
    simp only [newLoop, ih, GoMap.mem_keys_put, List.map_cons, List.mem_cons]
    tauto

theorem newLoop_nodup (data : GoMap) (ps : GoMap) (hd : data.keys.Nodup) :
    (newLoop data ps).keys.Nodup := by
  induction ps generalizing data with
  | nil => exact hd
  | cons e t ih =>
    obtain ⟨k₀, v₀⟩ := e
    exact ih _ (GoMap.nodup_keys_put _ _ _ hd)

/-- The map built from the empty map has one entry per distinct lower-cased key. -/
theorem newLoop_length (ps : GoMap) :
    (newLoop [] ps).length = (ps.map (fun e => ToLower e.1)).dedup.length := by
  have hnd := newLoop_nodup [] ps (by simp [GoMap.keys])
  have hlen : (newLoop [] ps).length = (newLoop [] ps).keys.length := by simp [GoMap.keys]
  rw [hlen, ← List.toFinset_card_of_nodup hnd, ← List.card_toFinset]
  congr 1
  ext k
  simp only [List.mem_toFinset, newLoop_mem_keys]
  simp [GoMap.keys]

theorem newLoop_loweredKeys (data : GoMap) (ps : GoMap) (hd : data.LoweredKeys) :
    (newLoop data ps).LoweredKeys := by
  intro k hk
  rcases (newLoop_mem_keys data ps k).mp hk with h | h
  · exact hd k h
  · rcases List.mem_map.mp h with ⟨e, _, rfl⟩
    exact ⟨e.1, rfl⟩

theorem Value.isString_iff {v : Value} : v.isString = true ↔ ∃ s, v = Value.str s := by
  cases v <;> simp [Value.isString]

theorem pairsLoop_flatPairs (ps : List (String × Value)) (i : Nat) (key : String) (data : GoMap)
    (hi : i % 2 = 0) : pairsLoop i key data (flatPairs ps) = Except.ok (newLoop data ps) := by
  induction ps generalizing i key data with
  | nil => rfl
  | cons e t ih =>
    obtain ⟨k, v⟩ := e
    have h1 : (i + 1) % 2 ≠ 0 := by omega
    have h2 : (i + 1 + 1) % 2 = 0 := by omega
    simp only [flatPairs, pairsLoop, hi, if_true, h1, if_false, newLoop]
    exact ih _ _ _ h2

theorem keysOf_flatPairs (ps : List (String × Value)) :
    keysOf (flatPairs ps) = ps.map (fun e => ToLower e.1) := by
  induction ps with
  | nil => rfl
  | cons e t ih =>
    obtain ⟨k, v⟩ := e
    simp [flatPairs, keysOf, Value.lowerKey, ih]

/-- An even-length argument list with strings at all key positions is a list of pairs. -/
theorem exists_flatPairs (n : Nat) (kv : List Value) (hlen : kv.length = 2 * n)
    (hstr : ∀ i, ∀ hi : i < kv.length, i % 2 = 0 → kv[i].isString = true) :
    ∃ ps, kv = flatPairs ps := by
  induction n generalizing kv with
  | zero =>
    refine ⟨[], ?_⟩
    simpa [flatPairs] using List.length_eq_zero.mp (by omega)
  | succ n ih =>
    match kv, hlen, hstr with
    | a :: b :: rest, hlen, hstr =>
      obtain ⟨s, hs⟩ := Value.isString_iff.mp (hstr 0 (by simp) rfl)
      have hrest : ∀ i, ∀ hi : i < rest.length, i % 2 = 0 → rest[i].isString = true := by
        intro i hi hmod
        have := hstr (i + 2) (by simp; omega) (by omega)
        simpa using this
      obtain ⟨ps, hps⟩ := ih rest (by simp at hlen; omega) hrest
      refine ⟨(s, b) :: ps, ?_⟩
      simp only [List.getElem_cons_zero] at hs
      simp [flatPairs, hs, hps]
    | [], hlen, _ => simp at hlen
    | [_], hlen, _ => simp at hlen; omega

/-- Splitting a list of pairs at a key position of its argument list. -/
theorem flatPairs_split (ps : List (String × Value)) (pre post : List Value) (k : String) (v : Value)
    (hkv : flatPairs ps = pre ++ Value.str k :: v :: post) (hpre : pre.length % 2 = 0) :
    ∃ ps₁ ps₂, ps = ps₁ ++ (k, v) :: ps₂ ∧ post = flatPairs ps₂ := by
  induction ps generalizing pre with
  | nil => simp [flatPairs] at hkv
  | cons e t ih =>
    obtain ⟨k₀, v₀⟩ := e
    match pre, hkv, hpre with
    | [], hkv, _ =>
      simp only [flatPairs, List.nil_append, List.cons.injEq, Value.str.injEq] at hkv
      obtain ⟨hk, hv, ht⟩ := hkv
      exact ⟨[], t, by simp [hk, hv], ht.symm⟩
    | [_], _, hpre => simp at hpre
    | a :: b :: pre', hkv, hpre =>
      simp only [flatPairs, List.cons_append, List.cons.injEq] at hkv
      obtain ⟨_, _, ht⟩ := hkv
      obtain ⟨ps₁, ps₂, h1, h2⟩ := ih pre' ht (by simp at hpre; omega)
      exact ⟨(k₀, v₀) :: ps₁, ps₂, by simp [h1], h2⟩

/-- The loop of `Pairs` panics exactly when a key position holds a non-string. -/
theorem pairsLoop_error_iff (kv : List Value) (i : Nat) (key : String) (data : GoMap) :
    (∃ f, pairsLoop i key data kv = Except.error f) ↔
      ∃ j, ∃ hj : j < kv.length, (i + j) % 2 = 0 ∧ kv[j].isString = false := by
  induction kv generalizing i key data with
  | nil => simp [pairsLoop]
  | cons a rest ih =>
    by_cases hi : i % 2 = 0
    · cases a with
      | str x =>
        simp only [pairsLoop, hi, if_true]
        rw [ih]
        constructor
        · rintro ⟨j, hj, hmod, hns⟩
          exact ⟨j + 1, by simp; omega, by omega, by simpa using hns⟩
        · rintro ⟨j, hj, hmod, hns⟩
          match j, hj, hmod, hns with
          | 0, _, _, hns => simp [Value.isString] at hns
          | j + 1, hj, hmod, hns =>
            exact ⟨j, by simpa using hj, by omega, by simpa using hns⟩
      | nil =>
        simp only [pairsLoop, hi, if_true]
        exact ⟨fun _ => ⟨0, by simp, by simpa using hi, by simp [Value.isString]⟩, fun _ => ⟨_, rfl⟩⟩
      | int n =>
        simp only [pairsLoop, hi, if_true]
        exact ⟨fun _ => ⟨0, by simp, by simpa using hi, by simp [Value.isString]⟩, fun _ => ⟨_, rfl⟩⟩
    · simp only [pairsLoop, hi, if_false]
      rw [ih]
      constructor
      · rintro ⟨j, hj, hmod, hns⟩
        exact ⟨j + 1, by simp; omega, by omega, by simpa using hns⟩
      · rintro ⟨j, hj, hmod, hns⟩
        match j, hj, hmod, hns with
        | 0, _, hmod, _ => exact absurd (by simpa using hmod) hi
        | j + 1, hj, hmod, hns =>
          exact ⟨j, by simpa using hj, by omega, by simpa using hns⟩

/-! ## Lemmas: the loops of `Join` and `Merge` -/

namespace Heap

/-- A lock method that returns changes the lock of the object and nothing else. -/
theorem withLocker_ok_inv {f : RWMutex → Except Fault RWMutex} {h h' : Heap} {p : Ptr}
    (hw : h.withLocker f p = Except.ok h') :
    ∃ o l, h[p]? = some o ∧ f o.locker = Except.ok l ∧ h' = h.set p { o with locker := l } := by
  cases hp : h[p]? with
  | none => rw [withLocker_of_none f hp] at hw; cases hw
  | some o =>
    cases hf : f o.locker with
    | error e => rw [withLocker_of_error f e hp hf] at hw; cases hw
    | ok l =>
      rw [withLocker_of_get f l hp hf] at hw
      cases hw
      exact ⟨o, l, rfl, hf, rfl⟩

theorem rlock_of_get {h : Heap} {p : Ptr} {o : MetaData} (hp : h[p]? = some o)
    (hw : o.locker.writer = false) :
    h.withLocker RWMutex.RLock p
      = Except.ok (h.set p { o with locker := { o.locker with readers := o.locker.readers + 1 } }) :=
  withLocker_of_get RWMutex.RLock _ hp (by simp [RWMutex.RLock, hw])

/-- Releasing the read lock taken by `rlock_of_get` restores the object. -/
theorem runlock_of_get {g : Heap} {p : Ptr} (o : MetaData)
    (hp : g[p]? = some { o with locker := { o.locker with readers := o.locker.readers + 1 } }) :
    g.withLocker RWMutex.RUnlock p = Except.ok (g.set p o) := by
  have := withLocker_of_get RWMutex.RUnlock o.locker hp (by simp [RWMutex.RUnlock])
  simpa using this

theorem rlock_error_of_not_readable {h : Heap} {p : Ptr} (hr : ¬ h.Readable p) :
    ∃ f, h.withLocker RWMutex.RLock p = Except.error f := by
  cases hp : h[p]? with
  | none => exact ⟨_, withLocker_of_none _ hp⟩
  | some o =>
    cases hw : o.locker.writer with
    | false => exact absurd ⟨o, hp, hw⟩ hr
    | true => exact ⟨_, withLocker_of_error RWMutex.RLock Fault.deadlock hp (by simp [RWMutex.RLock, hw])⟩

end Heap

theorem joinKeys_of_get {h : Heap} {md : Ptr} {o : MetaData} (ks : List String) (out : GoMap)
    (hp : h[md]? = some o) (hw : o.locker.writer = false) :
    joinKeys md ks out h = Except.ok (joinFrom o.entries ks out, h) := by
  induction ks generalizing out with
  | nil => rfl
  | cons k ks ih =>
    simp only [joinKeys, Get_of_get k hp hw, bind, Except.bind, joinFrom]
    exact ih _

theorem joinLoop_of_readable (h : Heap) (mds : List Ptr) (out : GoMap)
    (hr : ∀ md ∈ mds, h.Readable md) :
    joinLoop mds out h = Except.ok (joinData h mds out, h) := by
  induction mds generalizing out with
  | nil => rfl
  | cons md mds ih =>
    obtain ⟨o, hp, hw⟩ := hr md (List.mem_cons_self _ _)
    have h1 := Heap.rlock_of_get hp hw
    have hp1 := Heap.get_set_self
      { o with locker := { o.locker with readers := o.locker.readers + 1 } } hp
    have h2 := joinKeys_of_get o.entries.keys out hp1 hw
    have h3 := Heap.runlock_of_get o hp1
    rw [List.set_set, Heap.set_self h md o hp] at h3
    simp only [joinLoop, h1, bind, Except.bind, Heap.deref_of_get hp1, joinData, hp, MetaData.entries]
    simp only [MetaData.entries] at h2
    rw [h2]
    simp only [h3]
    exact ih _ (fun md' hmd' => hr md' (List.mem_cons_of_mem _ hmd'))

theorem joinLoop_error_of_not_readable (h : Heap) (mds : List Ptr) (out : GoMap)
    (hr : ¬ ∀ md ∈ mds, h.Readable md) : ∃ f, joinLoop mds out h = Except.error f := by
  induction mds generalizing out with
  | nil => simp at hr
  | cons md mds ih =>
    by_cases hmd : h.Readable md
    · have hrest : ¬ ∀ md' ∈ mds, h.Readable md' := by
        intro hall
        apply hr
        intro md' hmd'
        rcases List.mem_cons.mp hmd' with rfl | hmem
        · exact hmd
        · exact hall md' hmem
      obtain ⟨o, hp, hw⟩ := hmd
      have h1 := Heap.rlock_of_get hp hw
      have hp1 := Heap.get_set_self
        { o with locker := { o.locker with readers := o.locker.readers + 1 } } hp
      have h2 := joinKeys_of_get o.entries.keys out hp1 hw
      have h3 := Heap.runlock_of_get o hp1
      rw [List.set_set, Heap.set_self h md o hp] at h3
      simp only [joinLoop, h1, bind, Except.bind, Heap.deref_of_get hp1, MetaData.entries]
      simp only [MetaData.entries] at h2
      rw [h2]
      simp only [h3]
      exact ih _ hrest
    · obtain ⟨f, hf⟩ := Heap.rlock_error_of_not_readable hmd
      exact ⟨f, by simp [joinLoop, hf, bind, Except.bind]⟩

/-- Closed form of `Join` on readable sources: a new object at the first unused address,
and the heap otherwise as it was. -/
theorem Join_of_readable (h : Heap) (mds : List Ptr) (hr : ∀ md ∈ mds, h.Readable md) :
    Join h mds
      = Except.ok (h.length, h ++ [{ locker := RWMutex.zero, data := some (joinData h mds []) }]) := by
  simp [Join, joinLoop_of_readable h mds [] hr, bind, Except.bind, pure, Except.pure, Heap.alloc]

/-- A `Join` that returns had readable sources. -/
theorem Join_ok_inv {h : Heap} {mds : List Ptr} {r : Ptr × Heap} (hj : Join h mds = Except.ok r) :
    (∀ md ∈ mds, h.Readable md) ∧
      r = (h.length, h ++ [{ locker := RWMutex.zero, data := some (joinData h mds []) }]) := by
  by_cases hr : ∀ md ∈ mds, h.Readable md
  · rw [Join_of_readable h mds hr] at hj
    cases hj
    exact ⟨hr, rfl⟩
  · obtain ⟨f, hf⟩ := joinLoop_error_of_not_readable h mds [] hr
    simp [Join, hf, bind, Except.bind] at hj

theorem Heap.set_self_entries (h : Heap) (p : Ptr) (o : MetaData) (hp : h[p]? = some o)
    (hd : o.data ≠ none) : h.set p { o with data := some o.entries } = h := by
  have ho : ({ o with data := some o.entries } : MetaData) = o := by
    cases o with
    | mk l d =>
      cases d with
      | none => exact absurd rfl hd
      | some m => rfl
  rw [ho]
  exact Heap.set_self h p o hp

theorem mergeKeys_of_get {h : Heap} {md src : Ptr} {o s : MetaData} (ks : List String)
    (hmd : h[md]? = some o) (hl : o.locker = RWMutex.zero) (hd : o.data ≠ none)
    (hsrc : h[src]? = some s) (hne : src ≠ md) :
    mergeKeys md src ks h
      = Except.ok (h.set md { o with data := some (mergeFrom s.entries ks o.entries) }) := by
  induction ks generalizing h o with
  | nil =>
    simp only [mergeKeys, mergeFrom, pure, Except.pure]
    rw [Heap.set_self_entries h md o hmd hd]
  | cons k ks ih =>
    simp only [mergeKeys, Heap.deref_of_get hsrc, bind, Except.bind, mergeFrom]
    by_cases hv : s.entries.index k = Value.nil
    · simp only [hv, Set_nil, if_true]
      exact ih hmd hl hd hsrc
    · simp only [Set_of_get k hmd hl hd hv, hv, if_false]
      have hmd' := Heap.get_set_self
        { o with data := some (o.entries.put (ToLower k) (s.entries.index k)) } hmd
      have hsrc' : (List.set h md
          { o with data := some (o.entries.put (ToLower k) (s.entries.index k)) })[src]?
          = some s := by
        rw [List.getElem?_set_ne (Ne.symm hne)]
        exact hsrc
      rw [ih hmd' hl (by simp) hsrc', List.set_set]
      rfl

theorem mergeData_congr (h g : Heap) (srcs : List Ptr) (d : GoMap)
    (hsame : ∀ s ∈ srcs, g[s]? = h[s]?) : mergeData g srcs d = mergeData h srcs d := by
  induction srcs generalizing d with
  | nil => rfl
  | cons s rest ih =>
    simp only [mergeData, hsame s (List.mem_cons_self _ _)]
    cases h[s]? with
    | none => rfl
    | some o => exact ih _ (fun s' hs' => hsame s' (List.mem_cons_of_mem _ hs'))

/-- Closed form of the loop of `Merge` when the receiver is unlocked, has a map that is not nil
and is not a source. -/
theorem mergeLoop_of_get {h : Heap} {md : Ptr} {o : MetaData} (srcs : List Ptr)
    (hmd : h[md]? = some o) (hl : o.locker = RWMutex.zero) (hd : o.data ≠ none)
    (hsrc : ∀ s ∈ srcs, s ≠ md ∧ h.Readable s) :
    mergeLoop md srcs h
      = Except.ok (h.set md { o with data := some (mergeData h srcs o.entries) }) := by
  induction srcs generalizing h o with
  | nil =>
    simp only [mergeLoop, mergeData, pure, Except.pure]
    rw [Heap.set_self_entries h md o hmd hd]
  | cons s rest ih =>
    obtain ⟨hne, os, hs, hw⟩ := hsrc s (List.mem_cons_self _ _)
    have h1 := Heap.rlock_of_get hs hw
    have hs1 := Heap.get_set_self
      { os with locker := { os.locker with readers := os.locker.readers + 1 } } hs
    have hmd1 : (h.set s
        { os with locker := { os.locker with readers := os.locker.readers + 1 } })[md]? = some o := by
      rw [List.getElem?_set_ne hne]
      exact hmd
    have h2 := mergeKeys_of_get os.entries.keys hmd1 hl hd hs1 hne
    have hs2 : ((h.set s
        { os with locker := { os.locker with readers := os.locker.readers + 1 } }).set md
        { o with data := some (mergeFrom os.entries os.entries.keys o.entries) })[s]?
        = some { os with locker := { os.locker with readers := os.locker.readers + 1 } } := by
      rw [List.getElem?_set_ne (Ne.symm hne)]
      exact hs1
    have h3 := Heap.runlock_of_get os hs2
    have heq : ((h.set s
        { os with locker := { os.locker with readers := os.locker.readers + 1 } }).set md
        { o with data := some (mergeFrom os.entries os.entries.keys o.entries) }).set s os
        = h.set md { o with data := some (mergeFrom os.entries os.entries.keys o.entries) } := by
      rw [List.set_comm _ _ h hne, List.set_set, List.set_comm _ _ h (Ne.symm hne),
        Heap.set_self h s os hs]
    rw [heq] at h3
    have hmd2 := Heap.get_set_self
      { o with data := some (mergeFrom os.entries os.entries.keys o.entries) } hmd
    have hrest : ∀ s' ∈ rest, s' ≠ md ∧ Heap.Readable (h.set md
        { o with data := some (mergeFrom os.entries os.entries.keys o.entries) }) s' := by
      intro s' hs'
      obtain ⟨hne', o', ho', hw'⟩ := hsrc s' (List.mem_cons_of_mem _ hs')
      refine ⟨hne', o', ?_, hw'⟩
      rw [List.getElem?_set_ne (Ne.symm hne')]
      exact ho'
    have hih := ih hmd2 hl (by simp) hrest
    rw [List.set_set] at hih
    have hc := mergeData_congr h
      (h.set md { o with data := some (mergeFrom os.entries os.entries.keys o.entries) }) rest
      (mergeFrom os.entries os.entries.keys o.entries)
      (fun s' hs' => List.getElem?_set_ne (Ne.symm (hsrc s' (List.mem_cons_of_mem _ hs')).1))
    have hfin : mergeLoop md rest
        (h.set md { o with data := some (mergeFrom os.entries os.entries.keys o.entries) })
        = Except.ok (h.set md { o with data := some (mergeData h (s :: rest) o.entries) }) := by
      rw [hih]
      simp only [mergeData, hs]
      rw [← hc]
      rfl
    simp only [mergeLoop, h1, bind, Except.bind, Heap.deref_of_get hs1]
    have h2' : mergeKeys md s
        (MetaData.entries
          { os with locker := { os.locker with readers := os.locker.readers + 1 } }).keys
        (h.set s { os with locker := { os.locker with readers := os.locker.readers + 1 } })
        = Except.ok (List.set (h.set s
            { os with locker := { os.locker with readers := os.locker.readers + 1 } }) md
            { o with data := some (mergeFrom os.entries os.entries.keys o.entries) }) := h2
    rw [h2']
    simp only [h3]
    exact hfin

/-! ## Lemmas: properties of the maps kept by every call -/

namespace Heap

theorem allData_set {P : GoMap → Prop} {h : Heap} (p : Ptr) (x : MetaData)
    (hall : h.AllData P) (hx : P x.entries) : AllData P (h.set p x) := by
  intro o ho
  rcases List.mem_or_eq_of_mem_set ho with hmem | rfl
  · exact hall o hmem
  · exact hx

theorem allData_append {P : GoMap → Prop} {h : Heap} (x : MetaData)
    (hall : h.AllData P) (hx : P x.entries) : AllData P (h ++ [x]) := by
  intro o ho
  rcases List.mem_append.mp ho with hmem | hmem
  · exact hall o hmem
  · rw [List.mem_singleton.mp hmem]
    exact hx

theorem allData_withLocker {P : GoMap → Prop} {f : RWMutex → Except Fault RWMutex} {h h' : Heap}
    {p : Ptr} (hall : h.AllData P) (hw : h.withLocker f p = Except.ok h') : h'.AllData P := by
  obtain ⟨o, l, hp, _, rfl⟩ := withLocker_ok_inv hw
  exact allData_set p _ hall (hall o (List.getElem?_mem hp))

end Heap

theorem Set_allData {P : GoMap → Prop}
    (hput : ∀ d k v, P d → v ≠ Value.nil → P (d.put (ToLower k) v))
    {h h' : Heap} {p : Ptr} {k : String} {v : Value} (hall : h.AllData P)
    (hs : MetaData.Set h p k v = Except.ok h') : h'.AllData P := by
  rcases Set_ok_inv hs with ⟨_, rfl⟩ | ⟨hv, o, hp, _, _, rfl⟩
  · exact hall
  · exact Heap.allData_set p _ hall (hput _ _ _ (hall o (List.getElem?_mem hp)) hv)

theorem mergeKeys_allData {P : GoMap → Prop}
    (hput : ∀ d k v, P d → v ≠ Value.nil → P (d.put (ToLower k) v))
    {h h' : Heap} {md src : Ptr} (ks : List String) (hall : h.AllData P)
    (hm : mergeKeys md src ks h = Except.ok h') : h'.AllData P := by
  induction ks generalizing h with
  | nil =>
    simp only [mergeKeys, pure, Except.pure] at hm
    cases hm
    exact hall
  | cons k ks ih =>
    simp only [mergeKeys, bind, Except.bind] at hm
    cases hd : h.deref src with
    | error e => simp [hd] at hm
    | ok s =>
      simp only [hd] at hm
      cases hset : MetaData.Set h md k (s.entries.index k) with
      | error e => simp [hset] at hm
      | ok h1 =>
        simp only [hset] at hm
        exact ih (Set_allData hput hall hset) hm

theorem mergeLoop_allData {P : GoMap → Prop}
    (hput : ∀ d k v, P d → v ≠ Value.nil → P (d.put (ToLower k) v))
    {h h' : Heap} {md : Ptr} (srcs : List Ptr) (hall : h.AllData P)
    (hm : mergeLoop md srcs h = Except.ok h') : h'.AllData P := by
  induction srcs generalizing h with
  | nil =>
    simp only [mergeLoop, pure, Except.pure] at hm
    cases hm
    exact hall
  | cons s rest ih =>
    simp only [mergeLoop, bind, Except.bind] at hm
    cases h1 : h.withLocker RWMutex.RLock s with
    | error e => simp [h1] at hm
    | ok g1 =>
      simp only [h1] at hm
      cases hd : g1.deref s with
      | error e => simp [hd] at hm
      | ok os =>
        simp only [hd] at hm
        cases h2 : mergeKeys md s os.entries.keys g1 with
        | error e => simp [h2] at hm
        | ok g2 =>
          simp only [h2] at hm
          cases h3 : g2.withLocker RWMutex.RUnlock s with
          | error e => simp [h3] at hm
          | ok g3 =>
            simp only [h3] at hm
            have a1 := Heap.allData_withLocker hall h1
            have a2 := mergeKeys_allData hput os.entries.keys a1 h2
            have a3 := Heap.allData_withLocker a2 h3
            exact ih a3 hm

/-- A property of maps kept by every non-nil write under a lower-cased key is kept by `Merge`,
whatever the receiver and the sources are. -/
theorem Merge_allData {P : GoMap → Prop}
    (hput : ∀ d k v, P d → v ≠ Value.nil → P (d.put (ToLower k) v))
    {h h' : Heap} {md : Ptr} {srcs : List Ptr} (hall : h.AllData P)
    (hm : MetaData.Merge h md srcs = Except.ok h') : h'.AllData P := by
  unfold MetaData.Merge at hm
  split at hm
  · simp only [pure, Except.pure] at hm
    cases hm
    exact hall
  · exact mergeLoop_allData hput srcs hall hm

/-! ## Lemmas: invariants of the maps -/

theorem lowerKeys_nil : GoMap.LowerKeys [] := by
  intro k hk
  simp [GoMap.keys] at hk

theorem loweredKeys_nil : GoMap.LoweredKeys [] := by
  intro k hk
  simp [GoMap.keys] at hk

theorem loweredKeys_put (d : GoMap) (k : String) (v : Value) (hd : d.LoweredKeys) :
    (d.put (ToLower k) v).LoweredKeys := by
  intro k' hk'
  rcases (GoMap.mem_keys_put d (ToLower k) k' v).mp hk' with rfl | hmem
  · exact ⟨k, rfl⟩
  · exact hd k' hmem

/-- With a table that lower-cases every rune to a rune it leaves as it is, a key that is the
lower-casing of a string is its own lower-casing. -/
theorem lowerKeys_of_lowered (hidem : LowerIdempotent) (m : GoMap) (hm : m.LoweredKeys) :
    m.LowerKeys := by
  intro k hk
  obtain ⟨k₀, rfl⟩ := hm k hk
  exact (ToLower_idem hidem k₀).symm

theorem noNil_put (d : GoMap) (k : String) (v : Value) (hd : d.NoNil) (hv : v ≠ Value.nil) :
    (d.put k v).NoNil := by
  intro e he
  rcases GoMap.mem_put d k v e he with rfl | hmem
  · exact hv
  · exact hd e hmem

theorem newLoop_noNil (data ps : GoMap) (hd : data.NoNil) (hps : ps.NoNil) :
    (newLoop data ps).NoNil := by
  induction ps generalizing data with
  | nil => exact hd
  | cons e t ih =>
    obtain ⟨k, v⟩ := e
    exact ih _ (noNil_put _ _ _ hd (hps (k, v) (List.mem_cons_self _ _)))
      (fun e he => hps e (List.mem_cons_of_mem _ he))

theorem index_of_get? {m : GoMap} {k : String} {v : Value} (hg : m.get? k = some v) :
    m.index k = v := by
  simp [GoMap.index, hg]

theorem joinFrom_mem_keys (src : GoMap) (ks : List String) (out : GoMap) (k : String) :
    k ∈ (joinFrom src ks out).keys ↔ k ∈ out.keys ∨ k ∈ ks := by
  induction ks generalizing out with
  | nil => simp [joinFrom]
  | cons k₀ ks ih =>
    simp only [joinFrom, ih, GoMap.mem_keys_put, List.mem_cons]
    tauto

theorem joinFrom_lowerKeys (src : GoMap) (out : GoMap) (hsrc : src.LowerKeys) (hout : out.LowerKeys) :
    (joinFrom src src.keys out).LowerKeys := by
  intro k hk
  rcases (joinFrom_mem_keys src src.keys out k).mp hk with h | h
  · exact hout k h
  · exact hsrc k h

theorem joinFrom_loweredKeys (src : GoMap) (out : GoMap) (hsrc : src.LoweredKeys)
    (hout : out.LoweredKeys) : (joinFrom src src.keys out).LoweredKeys := by
  intro k hk
  rcases (joinFrom_mem_keys src src.keys out k).mp hk with h | h
  · exact hout k h
  · exact hsrc k h

theorem joinFrom_noNil (src : GoMap) (ks : List String) (out : GoMap) (hlow : src.LowerKeys)
    (hsrc : src.NoNil) (hks : ∀ k ∈ ks, k ∈ src.keys) (hout : out.NoNil) :
    (joinFrom src ks out).NoNil := by
  induction ks generalizing out with
  | nil => exact hout
  | cons k ks ih =>
    simp only [joinFrom]
    apply ih _ (fun k' hk' => hks k' (List.mem_cons_of_mem _ hk'))
    have hk := hks k (List.mem_cons_self _ _)
    obtain ⟨v, hv⟩ := (GoMap.mem_keys_iff src k).mp hk
    rw [← hlow k hk, index_of_get? hv]
    exact noNil_put _ _ _ hout (hsrc (k, v) (GoMap.get?_mem src k v hv))

theorem joinData_inv {P : GoMap → Prop} (h : Heap) (hstep : ∀ o ∈ h, ∀ out, P out → P (joinFrom o.entries o.entries.keys out))
    (mds : List Ptr) (out : GoMap) (hout : P out) : P (joinData h mds out) := by
  induction mds generalizing out with
  | nil => exact hout
  | cons md mds ih =>
    simp only [joinData]
    cases hp : h[md]? with
    | none => exact hout
    | some o => exact ih _ (hstep o (List.getElem?_mem hp) out hout)

theorem Pairs_ok_inv {h : Heap} {kv : List Value} {r : Ptr × Heap}
    (hp : Pairs h kv = Except.ok r) :
    ∃ ps, kv = flatPairs ps ∧
      r = (h.length, h ++ [{ locker := RWMutex.zero, data := some (newLoop [] ps) }]) := by
  by_cases hodd : kv.length % 2 = 1
  · simp [Pairs, hodd] at hp
  · have hstr : ∀ i, ∀ hi : i < kv.length, i % 2 = 0 → kv[i].isString = true := by
      intro i hi hmod
      by_contra hns
      have herr := (pairsLoop_error_iff kv 0 "" []).mpr
        ⟨i, hi, by simpa using hmod, by simpa using hns⟩
      obtain ⟨f, hf⟩ := herr
      simp [Pairs, hodd, hf, bind, Except.bind] at hp
    obtain ⟨ps, rfl⟩ := exists_flatPairs (kv.length / 2) kv (by omega) hstr
    refine ⟨ps, rfl, ?_⟩
    simp [Pairs, hodd, pairsLoop_flatPairs ps 0 "" [] rfl, bind, Except.bind, pure, Except.pure,
      Heap.alloc] at hp
    exact hp.symm

theorem noNil_of_flatPairs (ps : List (String × Value))
    (hkv : ∀ v ∈ flatPairs ps, v ≠ Value.nil) : GoMap.NoNil ps := by
  induction ps with
  | nil => intro e he; cases he
  | cons e t ih =>
    obtain ⟨k, v⟩ := e
    intro e' he'
    rcases List.mem_cons.mp he' with rfl | hmem
    · exact hkv v (by simp [flatPairs])
    · exact ih (fun v' hv' => hkv v' (by simp [flatPairs, hv'])) e' hmem

/-- Every call keeps this property of the heap: every key is the lower-casing of a string. -/
theorem Call.run_loweredKeys (c : Call) {h h' : Heap} (hall : h.AllData GoMap.LoweredKeys)
    (hrun : c.run h = Except.ok h') : h'.AllData GoMap.LoweredKeys := by
  cases c with
  | new m =>
    simp only [Call.run, New, Heap.alloc, pure, Except.pure, Except.ok.injEq] at hrun
    subst hrun
    exact Heap.allData_append _ hall (newLoop_loweredKeys [] m loweredKeys_nil)
  | pairs kv =>
    simp only [Call.run, bind, Except.bind] at hrun
    cases hp : Pairs h kv with
    | error e => simp [hp] at hrun
    | ok r =>
      simp only [hp, pure, Except.pure, Except.ok.injEq] at hrun
      obtain ⟨ps, _, rfl⟩ := Pairs_ok_inv hp
      subst hrun
      exact Heap.allData_append _ hall (newLoop_loweredKeys [] ps loweredKeys_nil)
  | join mds =>
    simp only [Call.run, bind, Except.bind] at hrun
    cases hj : Join h mds with
    | error e => simp [hj] at hrun
    | ok r =>
      simp only [hj, pure, Except.pure, Except.ok.injEq] at hrun
      obtain ⟨_, rfl⟩ := Join_ok_inv hj
      subst hrun
      exact Heap.allData_append _ hall
        (joinData_inv h (fun o ho out hout => joinFrom_loweredKeys o.entries out (hall o ho) hout)
          mds [] loweredKeys_nil)
  | copy md =>
    simp only [Call.run, MetaData.Copy, bind, Except.bind] at hrun
    cases hj : Join h [md] with
    | error e => simp [hj] at hrun
    | ok r =>
      simp only [hj, pure, Except.pure, Except.ok.injEq] at hrun
      obtain ⟨_, rfl⟩ := Join_ok_inv hj
      subst hrun
      exact Heap.allData_append _ hall
        (joinData_inv h (fun o ho out hout => joinFrom_loweredKeys o.entries out (hall o ho) hout)
          [md] [] loweredKeys_nil)
  | set md k val =>
    exact Set_allData (fun d k v hd _ => loweredKeys_put d k v hd) hall hrun
  | merge md mds =>
    exact Merge_allData (fun d k v hd _ => loweredKeys_put d k v hd) hall hrun

theorem runCalls_loweredKeys (cs : List Call) {h h' : Heap} (hall : h.AllData GoMap.LoweredKeys)
    (hrun : runCalls cs h = Except.ok h') : h'.AllData GoMap.LoweredKeys := by
  induction cs generalizing h with
  | nil =>
    simp only [runCalls, pure, Except.pure, Except.ok.injEq] at hrun
    subst hrun
    exact hall
  | cons c cs ih =>
    simp only [runCalls, bind, Except.bind] at hrun
    cases hc : c.run h with
    | error e => simp [hc] at hrun
    | ok h1 =>
      simp only [hc] at hrun
      exact ih (c.run_loweredKeys hall hc) hrun

/-! ## Lemmas: what `Join` and `Merge` store -/

theorem get?_eq_some_index {m : GoMap} {k : String} (hk : k ∈ m.keys) :
    m.get? k = some (m.index k) := by
  obtain ⟨v, hv⟩ := (GoMap.mem_keys_iff m k).mp hk
  rw [hv, index_of_get? hv]

theorem index_of_not_mem {m : GoMap} {k : String} (hk : k ∉ m.keys) : m.index k = Value.nil := by
  simp [GoMap.index, (GoMap.get?_eq_none_iff m k).mpr hk]

theorem joinFrom_get? (src : GoMap) (ks : List String) (out : GoMap) (k : String) :
    (joinFrom src ks out).get? k
      = if k ∈ ks then some (src.index (ToLower k)) else out.get? k := by
  induction ks generalizing out with
  | nil => simp [joinFrom]
  | cons k₀ ks ih =>
    simp only [joinFrom, ih, List.mem_cons]
    by_cases hmem : k ∈ ks
    · simp [hmem]
    · by_cases hk : k = k₀
      · subst hk
        simp [hmem, GoMap.get?_put_self]
      · simp [hmem, hk, GoMap.get?_put_ne _ _ _ _ hk]

theorem joinData_append (h : Heap) (pre post : List Ptr) (out : GoMap)
    (hpre : ∀ md ∈ pre, ∃ o, h[md]? = some o) :
    joinData h (pre ++ post) out = joinData h post (joinData h pre out) := by
  induction pre generalizing out with
  | nil => rfl
  | cons md pre ih =>
    obtain ⟨o, ho⟩ := hpre md (List.mem_cons_self _ _)
    simp only [List.cons_append, joinData, ho]
    exact ih _ (fun md' hmd' => hpre md' (List.mem_cons_of_mem _ hmd'))

theorem joinData_get?_of_not_mem (h : Heap) (mds : List Ptr) (out : GoMap) (k : String)
    (hk : ∀ q ∈ mds, ∀ o, h[q]? = some o → k ∉ o.entries.keys) :
    (joinData h mds out).get? k = out.get? k := by
  induction mds generalizing out with
  | nil => rfl
  | cons md mds ih =>
    simp only [joinData]
    cases hp : h[md]? with
    | none => rfl
    | some o =>
      simp only []
      rw [ih _ (fun q hq => hk q (List.mem_cons_of_mem _ hq)), joinFrom_get?,
        if_neg (hk md (List.mem_cons_self _ _) o hp)]

theorem joinData_mem_keys (h : Heap) (mds : List Ptr) (out : GoMap) (k : String)
    (hv : ∀ md ∈ mds, ∃ o, h[md]? = some o) :
    k ∈ (joinData h mds out).keys ↔
      k ∈ out.keys ∨ ∃ md ∈ mds, ∃ o, h[md]? = some o ∧ k ∈ o.entries.keys := by
  induction mds generalizing out with
  | nil => simp [joinData]
  | cons md mds ih =>
    obtain ⟨o, ho⟩ := hv md (List.mem_cons_self _ _)
    simp only [joinData, ho]
    rw [ih _ (fun md' hmd' => hv md' (List.mem_cons_of_mem _ hmd')), joinFrom_mem_keys]
    constructor
    · rintro ((hk | hk) | ⟨q, hq, oq, hoq, hk⟩)
      · exact Or.inl hk
      · exact Or.inr ⟨md, List.mem_cons_self _ _, o, ho, hk⟩
      · exact Or.inr ⟨q, List.mem_cons_of_mem _ hq, oq, hoq, hk⟩
    · rintro (hk | ⟨q, hq, oq, hoq, hk⟩)
      · exact Or.inl (Or.inl hk)
      · rcases List.mem_cons.mp hq with rfl | hq'
        · rw [ho] at hoq
          cases hoq
          exact Or.inl (Or.inr hk)
        · exact Or.inr ⟨q, hq', oq, hoq, hk⟩

/-- In the joined map a key has the value of the last source that holds it. -/
theorem joinData_get?_last (h : Heap) (pre post : List Ptr) (md : Ptr) (o : MetaData) (k : String)
    (hpre : ∀ q ∈ pre, ∃ oq, h[q]? = some oq) (hmd : h[md]? = some o) (hlow : o.entries.LowerKeys)
    (hk : k ∈ o.entries.keys) (hpost : ∀ q ∈ post, ∀ oq, h[q]? = some oq → k ∉ oq.entries.keys) :
    (joinData h (pre ++ md :: post) []).get? k = o.entries.get? k := by
  rw [joinData_append h pre (md :: post) [] hpre]
  simp only [joinData, hmd]
  rw [joinData_get?_of_not_mem h post _ k hpost, joinFrom_get?, if_pos hk, ← hlow k hk,
    get?_eq_some_index hk]

theorem mergeFrom_get? (src : GoMap) (ks : List String) (d : GoMap) (k : String)
    (hks : ∀ k' ∈ ks, k' = ToLower k') :
    (mergeFrom src ks d).get? k
      = if k ∈ ks ∧ src.index k ≠ Value.nil then some (src.index k) else d.get? k := by
  induction ks generalizing d with
  | nil => simp [mergeFrom]
  | cons k₀ ks ih =>
    have hk₀ := hks k₀ (List.mem_cons_self _ _)
    simp only [mergeFrom, ih _ (fun k' hk' => hks k' (List.mem_cons_of_mem _ hk')), List.mem_cons,
      ← hk₀]
    by_cases hmem : k ∈ ks ∧ src.index k ≠ Value.nil
    · simp [hmem.1, hmem.2]
    · rw [if_neg hmem]
      by_cases hk : k = k₀
      · subst hk
        by_cases hv : src.index k = Value.nil
        · simp [hv]
        · simp [hv, GoMap.get?_put_self]
      · by_cases hv : src.index k₀ = Value.nil
        · simp only [hv, if_true]
          have : ¬ ((k = k₀ ∨ k ∈ ks) ∧ src.index k ≠ Value.nil) := by
            rintro ⟨h1 | h1, h2⟩
            · exact hk h1
            · exact hmem ⟨h1, h2⟩
          rw [if_neg this]
        · simp only [hv, if_false, GoMap.get?_put_ne _ _ _ _ hk]
          have : ¬ ((k = k₀ ∨ k ∈ ks) ∧ src.index k ≠ Value.nil) := by
            rintro ⟨h1 | h1, h2⟩
            · exact hk h1
            · exact hmem ⟨h1, h2⟩
          rw [if_neg this]

theorem mergeData_append (h : Heap) (pre post : List Ptr) (d : GoMap)
    (hpre : ∀ s ∈ pre, ∃ o, h[s]? = some o) :
    mergeData h (pre ++ post) d = mergeData h post (mergeData h pre d) := by
  induction pre generalizing d with
  | nil => rfl
  | cons s pre ih =>
    obtain ⟨o, ho⟩ := hpre s (List.mem_cons_self _ _)
    simp only [List.cons_append, mergeData, ho]
    exact ih _ (fun s' hs' => hpre s' (List.mem_cons_of_mem _ hs'))

theorem mergeData_get?_of_nil (h : Heap) (srcs : List Ptr) (d : GoMap) (k : String)
    (hlow : ∀ s ∈ srcs, ∀ o, h[s]? = some o → o.entries.LowerKeys)
    (hk : ∀ s ∈ srcs, ∀ o, h[s]? = some o → o.entries.index k = Value.nil) :
    (mergeData h srcs d).get? k = d.get? k := by
  induction srcs generalizing d with
  | nil => rfl
  | cons s srcs ih =>
    simp only [mergeData]
    cases hp : h[s]? with
    | none => rfl
    | some o =>
      simp only []
      rw [ih _ (fun q hq => hlow q (List.mem_cons_of_mem _ hq))
        (fun q hq => hk q (List.mem_cons_of_mem _ hq)),
        mergeFrom_get? _ _ _ _ (hlow s (List.mem_cons_self _ _) o hp)]
      simp [hk s (List.mem_cons_self _ _) o hp]

/-- In the merged map a key has the last non-nil value that a source gives it. -/
theorem mergeData_get?_last (h : Heap) (pre post : List Ptr) (s : Ptr) (o : MetaData) (d : GoMap)
    (k : String) (v : Value)
    (hpre : ∀ q ∈ pre, ∃ oq, h[q]? = some oq) (hs : h[s]? = some o) (hlow : o.entries.LowerKeys)
    (hlowpost : ∀ q ∈ post, ∀ oq, h[q]? = some oq → oq.entries.LowerKeys)
    (hk : o.entries.get? k = some v) (hv : v ≠ Value.nil)
    (hpost : ∀ q ∈ post, ∀ oq, h[q]? = some oq → oq.entries.index k = Value.nil) :
    (mergeData h (pre ++ s :: post) d).get? k = some v := by
  have hmem : k ∈ o.entries.keys := (GoMap.mem_keys_iff _ _).mpr ⟨v, hk⟩
  have hidx : o.entries.index k = v := index_of_get? hk
  rw [mergeData_append h pre (s :: post) d hpre]
  simp only [mergeData, hs]
  rw [mergeData_get?_of_nil h post _ k hlowpost hpost, mergeFrom_get? _ _ _ _ hlow, hidx]
  simp [hmem, hv]

/-! ## Lemmas: between calls every lock is free -/

/-- Replacing an object by one with the same lock keeps the locks of the heap. -/
theorem lockers_set_same (h : Heap) (p : Ptr) (o x : MetaData) (hp : h[p]? = some o)
    (hx : x.locker = o.locker) :
    (h.set p x).map MetaData.locker = h.map MetaData.locker := by
  apply List.ext_getElem?
  intro i
  by_cases hi : p = i
  · subst hi
    simp only [List.getElem?_map, List.getElem?_set_self (Heap.lt_of_get hp), hp,
      Option.map_some', hx]
  · simp only [List.getElem?_map, List.getElem?_set_ne hi]

theorem Set_lockers {h h' : Heap} {p : Ptr} {k : String} {v : Value}
    (hs : MetaData.Set h p k v = Except.ok h') :
    h'.map MetaData.locker = h.map MetaData.locker := by
  rcases Set_ok_inv hs with ⟨_, rfl⟩ | ⟨_, o, hp, _, _, rfl⟩
  · rfl
  · exact lockers_set_same h p o _ hp rfl

theorem mergeKeys_lockers {h h' : Heap} {md src : Ptr} (ks : List String)
    (hm : mergeKeys md src ks h = Except.ok h') :
    h'.map MetaData.locker = h.map MetaData.locker := by
  induction ks generalizing h with
  | nil =>
    simp only [mergeKeys, pure, Except.pure] at hm
    cases hm
    rfl
  | cons k ks ih =>
    simp only [mergeKeys, bind, Except.bind] at hm
    cases hd : h.deref src with
    | error e => simp [hd] at hm
    | ok s =>
      simp only [hd] at hm
      cases hset : MetaData.Set h md k (s.entries.index k) with
      | error e => simp [hset] at hm
      | ok h1 =>
        simp only [hset] at hm
        rw [ih hm, Set_lockers hset]

theorem mergeLoop_lockers {h h' : Heap} {md : Ptr} (srcs : List Ptr)
    (hm : mergeLoop md srcs h = Except.ok h') :
    h'.map MetaData.locker = h.map MetaData.locker := by
  induction srcs generalizing h with
  | nil =>
    simp only [mergeLoop, pure, Except.pure] at hm
    cases hm
    rfl
  | cons s rest ih =>
    simp only [mergeLoop, bind, Except.bind] at hm
    cases h1 : h.withLocker RWMutex.RLock s with
    | error e => simp [h1] at hm
    | ok g1 =>
      simp only [h1] at hm
      cases hd : g1.deref s with
      | error e => simp [hd] at hm
      | ok os =>
        simp only [hd] at hm
        cases h2 : mergeKeys md s os.entries.keys g1 with
        | error e => simp [h2] at hm
        | ok g2 =>
          simp only [h2] at hm
          cases h3 : g2.withLocker RWMutex.RUnlock s with
          | error e => simp [h3] at hm
          | ok g3 =>
            simp only [h3] at hm
            rw [ih hm]
            obtain ⟨o, l1, hp, hl1, rfl⟩ := Heap.withLocker_ok_inv h1
            obtain ⟨o2, l3, hp2, hl3, rfl⟩ := Heap.withLocker_ok_inv h3
            have hk := mergeKeys_lockers os.entries.keys h2
            have ho2 : o2.locker = l1 := by
              have := congrArg (fun l => l[s]?) hk
              simp only [List.getElem?_map, hp2, List.getElem?_set_self (Heap.lt_of_get hp),
                Option.map_some'] at this
              exact Option.some.inj this
            have hl : l3 = o.locker := by
              rw [ho2] at hl3
              unfold RWMutex.RLock at hl1
              split at hl1
              · cases hl1
              · cases hl1
                simp only [RWMutex.RUnlock] at hl3
                split at hl3
                · cases hl3
                · cases hl3
                  simp
            subst hl
            apply List.ext_getElem?
            intro i
            have hki := congrArg (fun l => l[i]?) hk
            simp only [List.getElem?_map] at hki
            by_cases hi : s = i
            · subst hi
              simp only [List.getElem?_map, List.getElem?_set_self (Heap.lt_of_get hp2), hp,
                Option.map_some']
            · simp only [List.getElem?_map, List.getElem?_set_ne hi] at hki ⊢
              exact hki

theorem Merge_lockers {h h' : Heap} {md : Ptr} {srcs : List Ptr}
    (hm : MetaData.Merge h md srcs = Except.ok h') :
    h'.map MetaData.locker = h.map MetaData.locker := by
  unfold MetaData.Merge at hm
  split at hm
  · simp only [pure, Except.pure] at hm
    cases hm
    rfl
  · exact mergeLoop_lockers srcs hm

theorem unlocked_of_lockers {h h' : Heap} (heq : h'.map MetaData.locker = h.map MetaData.locker)
    (hall : ∀ o ∈ h, o.locker = RWMutex.zero) : ∀ o ∈ h', o.locker = RWMutex.zero := by
  intro o ho
  have hmem : o.locker ∈ h'.map MetaData.locker := List.mem_map.mpr ⟨o, ho, rfl⟩
  rw [heq] at hmem
  obtain ⟨o', ho', hl⟩ := List.mem_map.mp hmem
  rw [← hl]
  exact hall o' ho'

theorem unlocked_append {h : Heap} (d : GoMap) (hall : ∀ o ∈ h, o.locker = RWMutex.zero) :
    ∀ o ∈ h ++ [{ locker := RWMutex.zero, data := some d }], o.locker = RWMutex.zero := by
  intro o ho
  rcases List.mem_append.mp ho with hmem | hmem
  · exact hall o hmem
  · rw [List.mem_singleton.mp hmem]

/-- Every call that returns leaves every lock free, if every lock was free before. -/
theorem Call.run_unlocked (c : Call) {h h' : Heap} (hall : ∀ o ∈ h, o.locker = RWMutex.zero)
    (hrun : c.run h = Except.ok h') : ∀ o ∈ h', o.locker = RWMutex.zero := by
  cases c with
  | new m =>
    simp only [Call.run, New, Heap.alloc, pure, Except.pure, Except.ok.injEq] at hrun
    subst hrun
    exact unlocked_append _ hall
  | pairs kv =>
    simp only [Call.run, bind, Except.bind] at hrun
    cases hp : Pairs h kv with
    | error e => simp [hp] at hrun
    | ok r =>
      simp only [hp, pure, Except.pure, Except.ok.injEq] at hrun
      obtain ⟨ps, _, rfl⟩ := Pairs_ok_inv hp
      subst hrun
      exact unlocked_append _ hall
  | join mds =>
    simp only [Call.run, bind, Except.bind] at hrun
    cases hj : Join h mds with
    | error e => simp [hj] at hrun
    | ok r =>
      simp only [hj, pure, Except.pure, Except.ok.injEq] at hrun
      obtain ⟨_, rfl⟩ := Join_ok_inv hj
      subst hrun
      exact unlocked_append _ hall
  | copy md =>
    simp only [Call.run, MetaData.Copy, bind, Except.bind] at hrun
    cases hj : Join h [md] with
    | error e => simp [hj] at hrun
    | ok r =>
      simp only [hj, pure, Except.pure, Except.ok.injEq] at hrun
      obtain ⟨_, rfl⟩ := Join_ok_inv hj
      subst hrun
      exact unlocked_append _ hall
  | set md k val => exact unlocked_of_lockers (Set_lockers hrun) hall
  | merge md mds => exact unlocked_of_lockers (Merge_lockers hrun) hall

/-- Between the calls of a program every lock is free: the lock hypotheses of the statements
about single calls hold in every heap a program can reach. -/
theorem runCalls_unlocked (cs : List Call) {h h' : Heap}
    (hall : ∀ o ∈ h, o.locker = RWMutex.zero) (hrun : runCalls cs h = Except.ok h') :
    ∀ o ∈ h', o.locker = RWMutex.zero := by
  induction cs generalizing h with
  | nil =>
    simp only [runCalls, pure, Except.pure, Except.ok.injEq] at hrun
    subst hrun
    exact hall
  | cons c cs ih =>
    simp only [runCalls, bind, Except.bind] at hrun
    cases hc : c.run h with
    | error e => simp [hc] at hrun
    | ok h1 =>
      simp only [hc] at hrun
      exact ih (c.run_unlocked hall hc) hrun

/-! ## Claims on `Pairs` -/

/-- C1. For an even-length argument list `kv` with strings at all even indices, `Pairs` returns
a new object whose `Len()` is the number of distinct lower-cased keys of `kv`, and for every
pair `k, v` of `kv` after which no key lower-cases to `ToLower k` (the last occurrence),
`Get(k')` returns `v` for each case variant `k'` of `k`. -/
theorem Pairs_len_and_get (h : Heap) (kv : List Value) (heven : kv.length % 2 = 0)
    (hstr : ∀ i, ∀ hi : i < kv.length, i % 2 = 0 → kv[i].isString = true) :
    ∃ data, Pairs h kv = Except.ok (h.length, h ++ [{ locker := RWMutex.zero, data := some data }]) ∧
      MetaData.Len (h ++ [{ locker := RWMutex.zero, data := some data }]) h.length
        = Except.ok (keysOf kv).dedup.length ∧
      ∀ pre k v post, kv = pre ++ Value.str k :: v :: post → pre.length % 2 = 0 →
        (∀ k₂ ∈ keysOf post, k₂ ≠ ToLower k) →
        ∀ k', ToLower k' = ToLower k →
          MetaData.Get (h ++ [{ locker := RWMutex.zero, data := some data }]) h.length k'
            = Except.ok (v, h ++ [{ locker := RWMutex.zero, data := some data }]) := by
  obtain ⟨ps, rfl⟩ := exists_flatPairs (kv.length / 2) kv (by omega) hstr
  have hne : ¬ (flatPairs ps).length % 2 = 1 := by omega
  have hp : (h ++ [{ locker := RWMutex.zero, data := some (newLoop [] ps) }])[h.length]?
      = some { locker := RWMutex.zero, data := some (newLoop [] ps) } :=
    List.getElem?_concat_length _ _
  refine ⟨newLoop [] ps, ?_, ?_, ?_⟩
  · simp [Pairs, hne, pairsLoop_flatPairs ps 0 "" [] rfl, bind, Except.bind, pure, Except.pure,
      Heap.alloc]
  · simp [MetaData.Len, Heap.deref_of_get hp, bind, Except.bind, pure, Except.pure, GoMap.len,
      newLoop_length, keysOf_flatPairs, MetaData.entries]
  · intro pre k v post hkv hpre hlast k' hk'
    obtain ⟨ps₁, ps₂, rfl, rfl⟩ := flatPairs_split ps pre post k v hkv hpre
    rw [Get_of_get k' hp rfl, hk']
    have hpost : ∀ e ∈ ps₂, ToLower e.1 ≠ ToLower k := by
      intro e he
      apply hlast
      rw [keysOf_flatPairs]
      exact List.mem_map.mpr ⟨e, he, rfl⟩
    simp [GoMap.index, newLoop_get?_last [] ps₁ ps₂ k v hpost, MetaData.entries]

/-- C2. For an argument list of odd length, whatever its elements, `Pairs` panics with the
odd-number-of-input-pairs error (which reports the length) and returns nothing. -/
theorem Pairs_odd_panics (h : Heap) (kv : List Value) (hodd : kv.length % 2 = 1) :
    Pairs h kv = Except.error (Fault.oddPairs kv.length) := by
  simp [Pairs, hodd]

/-- C3. For an even-length argument list, `Pairs` fails if and only if some element at an even
index is not a string; a failure is a panic, which returns no object; and when every even index
holds a string the call succeeds. -/
theorem Pairs_fails_iff_nonstring_key (h : Heap) (kv : List Value) (heven : kv.length % 2 = 0) :
    ((∃ f, Pairs h kv = Except.error f) ↔
      ∃ i, ∃ hi : i < kv.length, i % 2 = 0 ∧ kv[i].isString = false) ∧
    (∀ f, Pairs h kv = Except.error f → ∀ r, Pairs h kv ≠ Except.ok r) ∧
    ((∀ i, ∀ hi : i < kv.length, i % 2 = 0 → kv[i].isString = true) →
      ∃ data, Pairs h kv = Except.ok (h.length, h ++ [{ locker := RWMutex.zero, data := some data }])) := by
  have hne : ¬ kv.length % 2 = 1 := by omega
  have hiff : (∃ f, Pairs h kv = Except.error f) ↔
      ∃ i, ∃ hi : i < kv.length, i % 2 = 0 ∧ kv[i].isString = false := by
    have hl := pairsLoop_error_iff kv 0 "" []
    simp only [Nat.zero_add] at hl
    rw [← hl]
    simp only [Pairs, hne, if_false]
    cases hloop : pairsLoop 0 "" [] kv with
    | error e => simp [bind, Except.bind]
    | ok d => simp [bind, Except.bind, pure, Except.pure]
  refine ⟨hiff, ?_, ?_⟩
  · intro f hf r hr
    rw [hf] at hr
    cases hr
  · intro hstr
    obtain ⟨ps, rfl⟩ := exists_flatPairs (kv.length / 2) kv (by omega) hstr
    exact ⟨newLoop [] ps, by
      simp [Pairs, hne, pairsLoop_flatPairs ps 0 "" [] rfl, bind, Except.bind, pure, Except.pure,
        Heap.alloc]⟩

/-! ## Claims on the invariants -/

/-- C4. Lower-case key invariant: after any sequence of `New`, `Pairs`, `Join`, `Copy`, `Set` and
`Merge` calls made by a program (with any arguments, in any order), every key `k` stored in the
`data` of every `MetaData` object is the lower-casing of some string, whatever the case of the
keys the callers supplied; so `k = ToLower k`, given that the table of `unicode.ToLower` maps
every rune to a rune it leaves as it is. -/
theorem lowerKeys_invariant (cs : List Call) (h : Heap) (hrun : runCalls cs [] = Except.ok h) :
    ∀ o ∈ h, ∀ k ∈ o.entries.keys, (∃ k₀, k = ToLower k₀) ∧ (LowerIdempotent → k = ToLower k) := by
  have hinv := runCalls_loweredKeys cs (fun _ ho => by cases ho) hrun
  intro o ho k hk
  exact ⟨hinv o ho k hk, fun hidem => lowerKeys_of_lowered hidem _ (hinv o ho) k hk⟩

/-! ## Claims on `Set` and `Get` -/

/-- C6, amended. For an unlocked object `o` at `md` whose map is not nil (the map of an object
made by `New`, `Pairs`, `Join` or `Copy`), a key `k` and a non-nil value `v`, `md.Set(k, v)`
returns and changes only the `data` of `o`, to a map `d` such that: `Get(k')` returns `v` for
every `k'` with `ToLower k' = ToLower k`; `v` is stored under `ToLower k`; every other key has
the entry it had; the keys are the old ones and `ToLower k`; and `Len` grows by one if
`ToLower k` was absent and is unchanged otherwise. -/
theorem Set_stores_under_lower_key (h : Heap) (md : Ptr) (o : MetaData) (k : String) (v : Value)
    (hmd : h[md]? = some o) (hl : o.locker = RWMutex.zero) (hd : o.data ≠ none)
    (hv : v ≠ Value.nil) :
    ∃ d, MetaData.Set h md k v = Except.ok (h.set md { o with data := some d }) ∧
      (∀ k', ToLower k' = ToLower k →
        MetaData.Get (h.set md { o with data := some d }) md k'
          = Except.ok (v, h.set md { o with data := some d })) ∧
      d.get? (ToLower k) = some v ∧
      (∀ k₂, k₂ ≠ ToLower k → d.get? k₂ = o.entries.get? k₂) ∧
      (∀ k₂, k₂ ∈ d.keys ↔ k₂ = ToLower k ∨ k₂ ∈ o.entries.keys) ∧
      MetaData.Len (h.set md { o with data := some d }) md
        = Except.ok (if ToLower k ∈ o.entries.keys then o.entries.len else o.entries.len + 1) := by
  have hp := Heap.get_set_self { o with data := some (o.entries.put (ToLower k) v) } hmd
  refine ⟨o.entries.put (ToLower k) v, Set_of_get k hmd hl hd hv, ?_, GoMap.get?_put_self _ _ _,
    fun k₂ hk₂ => GoMap.get?_put_ne _ _ _ _ hk₂, fun k₂ => GoMap.mem_keys_put _ _ _ _, ?_⟩
  · intro k' hk'
    rw [Get_of_get k' hp (by simp [hl, RWMutex.zero]), hk']
    have he : MetaData.entries { o with data := some (o.entries.put (ToLower k) v) }
        = o.entries.put (ToLower k) v := rfl
    rw [he]
    simp [GoMap.index, GoMap.get?_put_self]
  · simp only [MetaData.Len, Heap.deref_of_get hp, bind, Except.bind, pure, Except.pure]
    have he : MetaData.entries { o with data := some (o.entries.put (ToLower k) v) }
        = o.entries.put (ToLower k) v := rfl
    rw [he]
    simp [GoMap.len, GoMap.length_put]

/-- C7. For every heap, every receiver and every key, `md.Set(k, nil)` returns with the heap
exactly as it was: no key is added or removed and no stored value changes. -/
theorem Set_nil_leaves_data (h : Heap) (md : Ptr) (k : String) :
    MetaData.Set h md k Value.nil = Except.ok h :=
  Set_nil h md k

/-- C8. For an object `o` at `md` that is not write-locked and every key `k`, `md.Get(k)` returns
(it does not fail), with the heap as it was; the result is the value stored under `ToLower k`
when that key is present and `nil` when it is not; and two keys with the same lower-casing give
the same result. -/
theorem Get_returns_stored (h : Heap) (md : Ptr) (o : MetaData) (k : String)
    (hmd : h[md]? = some o) (hw : o.locker.writer = false) :
    (∃ v, MetaData.Get h md k = Except.ok (v, h) ∧
      (∀ w, o.entries.get? (ToLower k) = some w → v = w) ∧
      (o.entries.get? (ToLower k) = none → v = Value.nil)) ∧
    ∀ k', ToLower k' = ToLower k → MetaData.Get h md k' = MetaData.Get h md k := by
  refine ⟨⟨o.entries.index (ToLower k), Get_of_get k hmd hw, ?_, ?_⟩, ?_⟩
  · intro w hw'
    exact index_of_get? hw'
  · intro hnone
    simp [GoMap.index, hnone]
  · intro k' hk'
    rw [Get_of_get k hmd hw, Get_of_get k' hmd hw, hk']

/-! ## Claims on `Join` and `Merge` -/

/-- C9. For sources `mds` (zero or more, repetitions allowed) that are objects of the heap, not
write-locked and with lower-cased keys, `Join(mds...)` returns a pointer to a new object, at an
address that held no object before, and leaves every object of the heap as it was; the keys of
the new object are exactly the keys of the sources; each key has the value it has in the last
source that holds it; and with no sources `Len()` of the result is `0`. -/
theorem Join_union_last_wins (h : Heap) (mds : List Ptr)
    (hsrc : ∀ md ∈ mds, ∃ o, h[md]? = some o ∧ o.locker.writer = false ∧ o.entries.LowerKeys) :
    ∃ out, Join h mds = Except.ok (h.length, h ++ [{ locker := RWMutex.zero, data := some out }]) ∧
      h[h.length]? = none ∧
      (∀ k, k ∈ out.keys ↔ ∃ md ∈ mds, ∃ o, h[md]? = some o ∧ k ∈ o.entries.keys) ∧
      (∀ pre md post o k, mds = pre ++ md :: post → h[md]? = some o → k ∈ o.entries.keys →
        (∀ q ∈ post, ∀ oq, h[q]? = some oq → k ∉ oq.entries.keys) →
        out.get? k = o.entries.get? k) ∧
      (mds = [] →
        MetaData.Len (h ++ [{ locker := RWMutex.zero, data := some out }]) h.length = Except.ok 0) := by
  have hr : ∀ md ∈ mds, h.Readable md := fun md hmd =>
    let ⟨o, ho, hw, _⟩ := hsrc md hmd
    ⟨o, ho, hw⟩
  have hv : ∀ md ∈ mds, ∃ o, h[md]? = some o := fun md hmd =>
    let ⟨o, ho, _, _⟩ := hsrc md hmd
    ⟨o, ho⟩
  refine ⟨joinData h mds [], Join_of_readable h mds hr, List.getElem?_eq_none (Nat.le_refl _),
    ?_, ?_, ?_⟩
  · intro k
    rw [joinData_mem_keys h mds [] k hv]
    simp [GoMap.keys]
  · intro pre md post o k hmds hmd hk hpost
    subst hmds
    obtain ⟨o', ho', _, hlow⟩ := hsrc md (by simp)
    rw [hmd] at ho'
    cases ho'
    exact joinData_get?_last h pre post md o k
      (fun q hq => hv q (List.mem_append_left _ hq)) hmd hlow hk hpost
  · intro hnil
    subst hnil
    have hp : (h ++ [{ locker := RWMutex.zero, data := some (joinData h [] []) }])[h.length]?
        = some { locker := RWMutex.zero, data := some (joinData h [] []) } :=
      List.getElem?_concat_length _ _
    simp only [MetaData.Len, Heap.deref_of_get hp, bind, Except.bind, pure, Except.pure]
    rfl

/-- C10, amended. For an unlocked receiver `o` at `md` whose map is not nil and sources `srcs`
that are objects of the heap other than the receiver, not write-locked and with lower-cased
keys, `md.Merge(srcs...)` returns and changes only the `data` of the receiver; afterwards every
key `k` that some source pairs with a non-nil value `v`, no later source pairing `k` with a
non-nil value, has the value `v` in the receiver (`Get(k)` returns `v`), whatever earlier sources
and the receiver held for `k`. -/
theorem Merge_last_nonNil_wins (h : Heap) (md : Ptr) (o : MetaData) (srcs : List Ptr)
    (hmd : h[md]? = some o) (hl : o.locker = RWMutex.zero) (hd : o.data ≠ none)
    (hsrc : ∀ s ∈ srcs, s ≠ md ∧
      ∃ os, h[s]? = some os ∧ os.locker.writer = false ∧ os.entries.LowerKeys) :
    ∃ d, MetaData.Merge h md srcs = Except.ok (h.set md { o with data := some d }) ∧
      ∀ pre s post os k v, srcs = pre ++ s :: post → h[s]? = some os →
        os.entries.get? k = some v → v ≠ Value.nil →
        (∀ q ∈ post, ∀ oq, h[q]? = some oq → oq.entries.index k = Value.nil) →
        MetaData.Get (h.set md { o with data := some d }) md k
          = Except.ok (v, h.set md { o with data := some d }) := by
  have hr : ∀ s ∈ srcs, s ≠ md ∧ h.Readable s := fun s hs =>
    let ⟨hne, os, hos, hw, _⟩ := hsrc s hs
    ⟨hne, os, hos, hw⟩
  have hlow : ∀ s ∈ srcs, ∀ os, h[s]? = some os → os.entries.LowerKeys := by
    intro s hs os hos
    obtain ⟨_, os', hos', _, hl'⟩ := hsrc s hs
    rw [hos] at hos'
    cases hos'
    exact hl'
  refine ⟨mergeData h srcs o.entries, ?_, ?_⟩
  · unfold MetaData.Merge
    split
    · rename_i hlen
      have hnil : srcs = [] := List.length_eq_zero.mp hlen
      subst hnil
      simp only [mergeData, pure, Except.pure]
      rw [Heap.set_self_entries h md o hmd hd]
    · exact mergeLoop_of_get srcs hmd hl hd hr
  · intro pre s post os k v hsrcs hs hk hv hpost
    subst hsrcs
    have hp := Heap.get_set_self { o with data := some (mergeData h (pre ++ s :: post) o.entries) } hmd
    have hkl : k = ToLower k := hlow s (by simp) os hs k ((GoMap.mem_keys_iff _ _).mpr ⟨v, hk⟩)
    have hget := mergeData_get?_last h pre post s os o.entries k v
      (fun q hq => let ⟨_, oq, hoq, _, _⟩ := hsrc q (List.mem_append_left _ hq); ⟨oq, hoq⟩)
      hs (hlow s (by simp) os hs)
      (fun q hq => hlow q (List.mem_append_right _ (List.mem_cons_of_mem _ hq)))
      hk hv hpost
    rw [Get_of_get k hp (by simp [hl, RWMutex.zero]), ← hkl]
    have he : MetaData.entries { o with data := some (mergeData h (pre ++ s :: post) o.entries) }
        = mergeData h (pre ++ s :: post) o.entries := rfl
    rw [he]
    simp [GoMap.index, hget]

/-! ## Lemmas: copies and repeated writes -/

theorem joinFrom_self_sameData (src : GoMap) (hlow : src.LowerKeys) :
    (joinFrom src src.keys []).SameData src := by
  intro k
  rw [joinFrom_get?]
  by_cases hk : k ∈ src.keys
  · rw [if_pos hk, ← hlow k hk, get?_eq_some_index hk]
  · rw [if_neg hk, (GoMap.get?_eq_none_iff src k).mpr hk]
    rfl

theorem put_of_not_mem (m : GoMap) (k : String) (v : Value) (hk : k ∉ m.keys) :
    m.put k v = m ++ [(k, v)] := by
  induction m with
  | nil => rfl
  | cons e t ih =>
    obtain ⟨k₀, v₀⟩ := e
    simp only [GoMap.keys, List.map_cons, List.mem_cons, not_or] at hk
    simp only [GoMap.put, Ne.symm hk.1, if_false, List.cons_append]
    rw [ih hk.2]

theorem get?_append_of_not_mem (pre suf : GoMap) (k : String) (hk : k ∉ pre.keys) :
    (pre ++ suf).get? k = suf.get? k := by
  induction pre with
  | nil => rfl
  | cons e t ih =>
    obtain ⟨k₀, v₀⟩ := e
    simp only [GoMap.keys, List.map_cons, List.mem_cons, not_or] at hk
    simp only [List.cons_append, GoMap.get?, Ne.symm hk.1, if_false]
    exact ih hk.2

/-- Copying the entries of a map with distinct lower-cased keys one by one rebuilds the map. -/
theorem joinFrom_rebuild (pre suf : GoMap) (hnd : (pre ++ suf).keys.Nodup)
    (hlow : GoMap.LowerKeys (pre ++ suf)) :
    joinFrom (pre ++ suf) suf.keys pre = pre ++ suf := by
  induction suf generalizing pre with
  | nil => simp [GoMap.keys, joinFrom]
  | cons e t ih =>
    obtain ⟨k, v⟩ := e
    have hkeys : GoMap.keys (pre ++ (k, v) :: t) = pre.keys ++ k :: GoMap.keys t := by
      simp [GoMap.keys]
    have hk : k ∉ pre.keys := by
      rw [hkeys] at hnd
      intro hmem
      exact (List.nodup_append.mp hnd).2.2 hmem (List.mem_cons_self _ _) 
    have hmem : k ∈ GoMap.keys (pre ++ (k, v) :: t) := by rw [hkeys]; simp
    have hidx : GoMap.index (pre ++ (k, v) :: t) (ToLower k) = v := by
      rw [← hlow k hmem]
      apply index_of_get?
      rw [get?_append_of_not_mem pre _ k hk]
      simp [GoMap.get?]
    have hsplit : pre ++ (k, v) :: t = (pre ++ [(k, v)]) ++ t := by simp
    simp only [GoMap.keys, List.map_cons, joinFrom]
    rw [hidx, put_of_not_mem pre k v hk]
    have := ih (pre ++ [(k, v)]) (by rw [← hsplit]; exact hnd) (by rw [← hsplit]; exact hlow)
    rw [← hsplit] at this
    exact this

theorem joinFrom_self_eq (src : GoMap) (hnd : src.keys.Nodup) (hlow : src.LowerKeys) :
    joinFrom src src.keys [] = src := by
  have := joinFrom_rebuild [] src (by simpa using hnd) (by simpa using hlow)
  simpa using this

theorem put_put_same (m : GoMap) (k : String) (v₁ v₂ : Value) :
    (m.put k v₁).put k v₂ = m.put k v₂ := by
  induction m with
  | nil => simp [GoMap.put]
  | cons e t ih =>
    obtain ⟨k₀, v₀⟩ := e
    by_cases hk : k₀ = k
    · simp [GoMap.put, hk]
    · simp [GoMap.put, hk, ih]

theorem put_put_sameData (m : GoMap) (k₁ k₂ : String) (v₁ v₂ : Value) (hne : k₁ ≠ k₂) :
    ((m.put k₁ v₁).put k₂ v₂).SameData ((m.put k₂ v₂).put k₁ v₁) := by
  intro k
  by_cases h2 : k = k₂
  · subst h2
    rw [GoMap.get?_put_self, GoMap.get?_put_ne _ _ _ _ (Ne.symm hne), GoMap.get?_put_self]
  · rw [GoMap.get?_put_ne _ _ _ _ h2]
    by_cases h1 : k = k₁
    · subst h1
      rw [GoMap.get?_put_self, GoMap.get?_put_self]
    · rw [GoMap.get?_put_ne _ _ _ _ h1, GoMap.get?_put_ne _ _ _ _ h1,
        GoMap.get?_put_ne _ _ _ _ h2]

theorem put_put_length (m : GoMap) (k₁ k₂ : String) (v₁ v₂ : Value) (hne : k₁ ≠ k₂) :
    ((m.put k₁ v₁).put k₂ v₂).length = ((m.put k₂ v₂).put k₁ v₁).length := by
  simp only [GoMap.length_put, GoMap.mem_keys_put, hne, Ne.symm hne, false_or]
  by_cases h1 : k₁ ∈ m.keys <;> by_cases h2 : k₂ ∈ m.keys <;> simp [h1, h2]

theorem GoMap.get?_of_mem_nodup_keys (m : GoMap) (k : String) (v : Value) (hnd : m.keys.Nodup)
    (hmem : (k, v) ∈ m) : m.get? k = some v := by
  induction m with
  | nil => cases hmem
  | cons e t ih =>
    obtain ⟨k₀, v₀⟩ := e
    simp only [GoMap.keys, List.map_cons, List.nodup_cons] at hnd
    rcases List.mem_cons.mp hmem with heq | ht
    · cases heq
      simp [GoMap.get?]
    · have hne : k₀ ≠ k := by
        rintro rfl
        exact hnd.1 (List.mem_map.mpr ⟨(k₀, v), ht, rfl⟩)
      simp only [GoMap.get?, hne, if_false]
      exact ih hnd.2 ht

theorem Heap.get_append_set_ne (h : Heap) (x y : MetaData) (p : Ptr) (hlt : p < h.length) :
    (List.set (h ++ [x]) p y)[h.length]? = some x := by
  rw [List.getElem?_set_ne (Nat.ne_of_lt hlt)]
  exact List.getElem?_concat_length _ _

/-! ## Claims on `Copy`, `New` and repeated `Set` -/

/-- C11. For an unlocked object `o` at `orig` with lower-cased keys, `orig.Copy()` returns a new
object whose `data` `c` equals the `data` of `o` as a Go map (the very same entries when the keys
of `o` are pairwise distinct), and `cpy.Get(k')` returns `c[ToLower k']`. A later
`orig.Set(k, v)` either returns, and then the copy still holds `c` and `cpy.Get(k')` returns for
every `k'` what it returned right after the copy; or the map of `o` is nil, `v` is not nil and
the call panics on the write to the nil map, no object being changed. -/
theorem Copy_independent_of_later_Set (h : Heap) (orig : Ptr) (o : MetaData)
    (hp : h[orig]? = some o) (hl : o.locker = RWMutex.zero) (hlow : o.entries.LowerKeys) :
    ∃ c, MetaData.Copy h orig
        = Except.ok (h.length, h ++ [{ locker := RWMutex.zero, data := some c }]) ∧
      c.SameData o.entries ∧ (o.entries.keys.Nodup → c = o.entries) ∧
      (∀ k', MetaData.Get (h ++ [{ locker := RWMutex.zero, data := some c }]) h.length k'
          = Except.ok (c.index (ToLower k'), h ++ [{ locker := RWMutex.zero, data := some c }])) ∧
      ∀ k v,
        (∃ h₂, MetaData.Set (h ++ [{ locker := RWMutex.zero, data := some c }]) orig k v
            = Except.ok h₂ ∧
          h₂[h.length]? = some { locker := RWMutex.zero, data := some c } ∧
          ∀ k', MetaData.Get h₂ h.length k' = Except.ok (c.index (ToLower k'), h₂)) ∨
        (o.data = none ∧ v ≠ Value.nil ∧
          MetaData.Set (h ++ [{ locker := RWMutex.zero, data := some c }]) orig k v
            = Except.error Fault.nilMapWrite) := by
  have hr : ∀ md ∈ [orig], h.Readable md := by
    intro md hmd
    rw [List.mem_singleton.mp hmd]
    exact ⟨o, hp, by simp [hl, RWMutex.zero]⟩
  have hjd : joinData h [orig] [] = joinFrom o.entries o.entries.keys [] := by
    simp [joinData, hp]
  have hlt : orig < h.length := Heap.lt_of_get hp
  have hc : (h ++ [{ locker := RWMutex.zero, data := some (joinFrom o.entries o.entries.keys []) }])[h.length]?
      = some { locker := RWMutex.zero, data := some (joinFrom o.entries o.entries.keys []) } :=
    List.getElem?_concat_length _ _
  have ho : (h ++ [{ locker := RWMutex.zero, data := some (joinFrom o.entries o.entries.keys []) }])[orig]?
      = some o := by
    rw [List.getElem?_append_left hlt]
    exact hp
  refine ⟨joinFrom o.entries o.entries.keys [], ?_, joinFrom_self_sameData o.entries hlow,
    fun hnd => joinFrom_self_eq o.entries hnd hlow, fun k' => Get_of_get k' hc rfl, ?_⟩
  · rw [MetaData.Copy, Join_of_readable h [orig] hr, hjd]
  · intro k v
    by_cases hv : v = Value.nil
    · subst hv
      exact Or.inl ⟨_, Set_nil _ _ _, hc, fun k' => Get_of_get k' hc rfl⟩
    · by_cases hd : o.data = none
      · exact Or.inr ⟨hd, hv, Set_of_nilMap k ho hl hd hv⟩
      · have hc₂ := Heap.get_append_set_ne h
          { locker := RWMutex.zero, data := some (joinFrom o.entries o.entries.keys []) }
          { o with data := some (o.entries.put (ToLower k) v) } orig hlt
        exact Or.inl ⟨_, Set_of_get k ho hl hd hv, hc₂, fun k' => Get_of_get k' hc₂ rfl⟩

/-- C12. For every input map `m`, `New(m)` returns a new object, at an address that held no
object before, whose keys are exactly the lower-casings of the keys of `m`; the value stored
under a key is the value of the input key written last among those with that lower-casing; and
when no two keys of `m` have the same lower-casing, `Len()` is the size of `m` and `Get(k)` is
`m[k]` for every key `k` of `m`. -/
theorem New_lowercases_and_last_wins (h : Heap) (m : GoMap) :
    ∃ d, New h m = (h.length, h ++ [{ locker := RWMutex.zero, data := some d }]) ∧
      h[h.length]? = none ∧
      (∀ k, k ∈ d.keys ↔ ∃ k₀ ∈ m.keys, k = ToLower k₀) ∧
      (∀ pre k v post, m = pre ++ (k, v) :: post → (∀ e ∈ post, ToLower e.1 ≠ ToLower k) →
        d.get? (ToLower k) = some v) ∧
      ((m.map fun e => ToLower e.1).Nodup →
        MetaData.Len (h ++ [{ locker := RWMutex.zero, data := some d }]) h.length = Except.ok m.len ∧
        ∀ k ∈ m.keys, MetaData.Get (h ++ [{ locker := RWMutex.zero, data := some d }]) h.length k
          = Except.ok (m.index k, h ++ [{ locker := RWMutex.zero, data := some d }])) := by
  have hp : (h ++ [{ locker := RWMutex.zero, data := some (newLoop [] m) }])[h.length]?
      = some { locker := RWMutex.zero, data := some (newLoop [] m) } :=
    List.getElem?_concat_length _ _
  refine ⟨newLoop [] m, rfl, List.getElem?_eq_none (Nat.le_refl _), ?_, ?_, ?_⟩
  · intro k
    rw [newLoop_mem_keys]
    simp only [GoMap.keys, List.map_nil, List.not_mem_nil, false_or, List.mem_map]
    constructor
    · rintro ⟨e, he, rfl⟩
      exact ⟨e.1, ⟨e, he, rfl⟩, rfl⟩
    · rintro ⟨k₀, ⟨e, he, rfl⟩, rfl⟩
      exact ⟨e, he, rfl⟩
  · intro pre k v post hm hpost
    subst hm
    exact newLoop_get?_last [] pre post k v hpost
  · intro hnd
    refine ⟨?_, ?_⟩
    · simp only [MetaData.Len, Heap.deref_of_get hp, bind, Except.bind, pure, Except.pure,
        MetaData.entries, Option.getD_some,
        GoMap.len, newLoop_length, List.dedup_eq_self.mpr hnd, List.length_map]
    · intro k hk
      have hkeys : m.keys.Nodup := by
        have hmap : (m.map fun e => ToLower e.1) = m.keys.map ToLower := by
          simp [GoMap.keys]
        rw [hmap] at hnd
        exact List.Nodup.of_map _ hnd
      obtain ⟨v, hv⟩ := (GoMap.mem_keys_iff m k).mp hk
      obtain ⟨pre, post, hsplit⟩ := List.append_of_mem (GoMap.get?_mem m k v hv)
      have hpost : ∀ e ∈ post, ToLower e.1 ≠ ToLower k := by
        intro e he heq
        rw [hsplit, List.map_append, List.map_cons] at hnd
        have h2 := (List.nodup_cons.mp (List.nodup_append.mp hnd).2.1).1
        exact h2 (List.mem_map.mpr ⟨e, he, heq⟩)
      have hget : (newLoop [] m).get? (ToLower k) = some v := by
        rw [hsplit]
        exact newLoop_get?_last [] pre post k v hpost
      rw [Get_of_get k hp rfl, index_of_get? hv]
      simp [MetaData.entries, GoMap.index, hget]

/-- C20. For an unlocked object `o` at `md`, keys `k₁`, `k₂` and non-nil values `v₁`, `v₂`,
one of two cases holds. Either `Set(k₁, v₁)` then `Set(k₂, v₂)` returns, and so do the two calls
in the other order and `Set(k₂, v₂)` alone, each changing only the `data` of `o`: if
`ToLower k₁ = ToLower k₂`, the two calls in a row leave the very `data` that `Set(k₂, v₂)` alone
leaves; otherwise the two orders leave the same `data` as Go maps, with the same `Len`. Or the
map of `o` is nil, and then `Set(k₁, v₁)` and `Set(k₂, v₂)` both panic on the write to the nil
map, whatever the order, no `data` being changed. -/
theorem Set_last_writer_wins_and_commutes (h : Heap) (md : Ptr) (o : MetaData) (k₁ k₂ : String)
    (v₁ v₂ : Value) (hp : h[md]? = some o) (hl : o.locker = RWMutex.zero)
    (hv₁ : v₁ ≠ Value.nil) (hv₂ : v₂ ≠ Value.nil) :
    (∃ g₁ g₂ d₁₂ d₂₁ d₂,
      MetaData.Set h md k₁ v₁ = Except.ok g₁ ∧
      MetaData.Set g₁ md k₂ v₂ = Except.ok (h.set md { o with data := some d₁₂ }) ∧
      MetaData.Set h md k₂ v₂ = Except.ok g₂ ∧
      MetaData.Set g₂ md k₁ v₁ = Except.ok (h.set md { o with data := some d₂₁ }) ∧
      g₂ = h.set md { o with data := some d₂ } ∧
      (ToLower k₁ = ToLower k₂ → d₁₂ = d₂) ∧
      (ToLower k₁ ≠ ToLower k₂ → d₁₂.SameData d₂₁ ∧ d₁₂.len = d₂₁.len)) ∨
    (o.data = none ∧ MetaData.Set h md k₁ v₁ = Except.error Fault.nilMapWrite ∧
      MetaData.Set h md k₂ v₂ = Except.error Fault.nilMapWrite) := by
  by_cases hd : o.data = none
  · exact Or.inr ⟨hd, Set_of_nilMap k₁ hp hl hd hv₁, Set_of_nilMap k₂ hp hl hd hv₂⟩
  · left
    have hp₁ := Heap.get_set_self { o with data := some (o.entries.put (ToLower k₁) v₁) } hp
    have hp₂ := Heap.get_set_self { o with data := some (o.entries.put (ToLower k₂) v₂) } hp
    have hs₁ := Set_of_get k₂ hp₁ hl (by simp) hv₂
    have hs₂ := Set_of_get k₁ hp₂ hl (by simp) hv₁
    rw [List.set_set] at hs₁ hs₂
    refine ⟨_, _, (o.entries.put (ToLower k₁) v₁).put (ToLower k₂) v₂,
      (o.entries.put (ToLower k₂) v₂).put (ToLower k₁) v₁, o.entries.put (ToLower k₂) v₂,
      Set_of_get k₁ hp hl hd hv₁, hs₁, Set_of_get k₂ hp hl hd hv₂, hs₂, rfl, ?_, ?_⟩
    · intro heq
      rw [heq, put_put_same]
    · intro hne
      exact ⟨put_put_sameData _ _ _ _ _ hne, put_put_length _ _ _ _ _ hne⟩

/-! ## Claims on the context functions -/

omit [RuneTable] in
theorem Context.value_of_not_attached (ctx : Context) (hna : ctx.attached = false) :
    ctx.Value CtxKey.mdContextKey = none := by
  induction ctx with
  | background => rfl
  | withValue parent key val ih =>
    simp only [Context.attached, Bool.or_eq_false_iff, decide_eq_false_iff_not] at hna
    simp only [Context.Value, hna.1, if_false]
    exact ih hna.2

omit [RuneTable] in
theorem FromContext_eq_some_iff (ctx : Context) (e : Ptr) :
    FromContext ctx = (some e, true) ↔ ctx.Value CtxKey.mdContextKey = some (CtxVal.md e) := by
  unfold FromContext
  cases hv : ctx.Value CtxKey.mdContextKey with
  | none => simp
  | some val =>
    cases val with
    | md p => simp
    | other v => simp

omit [RuneTable] in
theorem FromContext_eq_none_iff (ctx : Context) :
    FromContext ctx = (none, false) ↔ ∀ e, ctx.Value CtxKey.mdContextKey ≠ some (CtxVal.md e) := by
  unfold FromContext
  cases hv : ctx.Value CtxKey.mdContextKey with
  | none => simp
  | some val =>
    cases val with
    | md p => simp
    | other v => simp

/-- C13, amended. For every context `ctx` and every pointer `md`,
`FromContext(NewContext(ctx, md))` returns `(md, true)`: the pointer that was attached, not a
copy. So for an unlocked object at `md` whose map is not nil (the map of an object made by `New`,
`Pairs`, `Join` or `Copy`), a `Set(k, v)` with a non-nil `v` made through the pointer taken from
the context or through `md` itself returns and is seen by `Get(k)` through the pointer a later
`FromContext` of the same context returns. -/
theorem FromContext_NewContext_same_instance (h : Heap) (ctx : Context) (md : Ptr) (o : MetaData)
    (k : String) (v : Value) (hp : h[md]? = some o) (hl : o.locker = RWMutex.zero)
    (hd : o.data ≠ none) (hv : v ≠ Value.nil) :
    FromContext (NewContext ctx md) = (some md, true) ∧
    ∀ p, (FromContext (NewContext ctx md)).1 = some p ∨ p = md →
      ∃ h', MetaData.Set h p k v = Except.ok h' ∧
        ∀ q, (FromContext (NewContext ctx md)).1 = some q →
          MetaData.Get h' q k = Except.ok (v, h') := by
  have hfc : FromContext (NewContext ctx md) = (some md, true) := by
    simp [FromContext, NewContext, Context.Value]
  refine ⟨hfc, ?_⟩
  intro p hpmd
  have hpe : p = md := by
    rcases hpmd with hp' | hp'
    · rw [hfc] at hp'
      exact (Option.some.inj hp').symm
    · exact hp'
  subst hpe
  refine ⟨_, Set_of_get k hp hl hd hv, ?_⟩
  intro q hq
  rw [hfc] at hq
  have hqe : q = p := (Option.some.inj hq).symm
  subst hqe
  have hp' := Heap.get_set_self { o with data := some (o.entries.put (ToLower k) v) } hp
  rw [Get_of_get k hp' (by simp [hl, RWMutex.zero])]
  simp [MetaData.entries, GoMap.index, GoMap.get?_put_self]

/-- C14. `AppendToContext(ctx, mds...)` with readable sources `mds`:
with no sources it returns `ctx` itself and the heap as it was;
with sources and a readable object `e` attached to `ctx`, it returns a context from which
`FromContext` yields `(j, true)`, where `j` is the new object that `Join(e, mds...)` returns, and
every object of the heap, `e` included, is as it was, and `FromContext(ctx)` is still `(e, true)`;
with sources and nothing attached, `j` is the new object that `Join(e, mds...)` returns for a
new empty `e`. -/
theorem AppendToContext_joins_into_new_instance (h : Heap) (ctx : Context) (mds : List Ptr)
    (hsrc : ∀ s ∈ mds, h.Readable s) :
    (mds = [] → AppendToContext h ctx mds = Except.ok (ctx, h)) ∧
    (mds ≠ [] → ∀ e, FromContext ctx = (some e, true) → h.Readable e →
      ∃ j, Join h (e :: mds)
          = Except.ok (h.length, h ++ [{ locker := RWMutex.zero, data := some j }]) ∧
        AppendToContext h ctx mds
          = Except.ok (NewContext ctx h.length, h ++ [{ locker := RWMutex.zero, data := some j }]) ∧
        FromContext (NewContext ctx h.length) = (some h.length, true) ∧
        h.length ≠ e ∧
        (h ++ [{ locker := RWMutex.zero, data := some j }])[e]? = h[e]? ∧
        FromContext ctx = (some e, true)) ∧
    (mds ≠ [] → FromContext ctx = (none, false) →
      ∃ j, Join (h ++ [{ locker := RWMutex.zero, data := some [] }]) (h.length :: mds)
          = Except.ok (h.length + 1,
              h ++ [{ locker := RWMutex.zero, data := some [] }]
                ++ [{ locker := RWMutex.zero, data := some j }]) ∧
        AppendToContext h ctx mds
          = Except.ok (NewContext ctx (h.length + 1),
              h ++ [{ locker := RWMutex.zero, data := some [] }]
                ++ [{ locker := RWMutex.zero, data := some j }]) ∧
        FromContext (NewContext ctx (h.length + 1)) = (some (h.length + 1), true)) := by
  refine ⟨?_, ?_, ?_⟩
  · intro hnil
    subst hnil
    simp [AppendToContext, pure, Except.pure]
  · intro hne e he hre
    have hlen : ¬ mds.length = 0 := fun hz => hne (List.length_eq_zero.mp hz)
    have hr : ∀ s ∈ e :: mds, h.Readable s := by
      intro s hs
      rcases List.mem_cons.mp hs with rfl | hs'
      · exact hre
      · exact hsrc s hs'
    have hj := Join_of_readable h (e :: mds) hr
    have hval := (FromContext_eq_some_iff ctx e).mp he
    obtain ⟨oe, hoe, _⟩ := hre
    have hlt := Heap.lt_of_get hoe
    refine ⟨joinData h (e :: mds) [], hj, ?_, ?_, Nat.ne_of_gt hlt,
      List.getElem?_append_left hlt, he⟩
    · simp only [AppendToContext, hlen, if_false, hval, bind, Except.bind, hj, pure, Except.pure,
        NewContext]
    · simp [FromContext, NewContext, Context.Value]
  · intro hne hnone
    have hlen : ¬ mds.length = 0 := fun hz => hne (List.length_eq_zero.mp hz)
    have hnew : (h ++ [{ locker := RWMutex.zero, data := some [] }])[h.length]?
        = some { locker := RWMutex.zero, data := some [] } := List.getElem?_concat_length _ _
    have hr : ∀ s ∈ h.length :: mds,
        Heap.Readable (h ++ [{ locker := RWMutex.zero, data := some [] }]) s := by
      intro s hs
      rcases List.mem_cons.mp hs with rfl | hs'
      · exact ⟨_, hnew, rfl⟩
      · obtain ⟨os, hos, hw⟩ := hsrc s hs'
        exact ⟨os, by rw [List.getElem?_append_left (Heap.lt_of_get hos)]; exact hos, hw⟩
    have hj := Join_of_readable (h ++ [{ locker := RWMutex.zero, data := some [] }])
      (h.length :: mds) hr
    simp only [List.length_append, List.length_singleton] at hj
    refine ⟨_, hj, ?_, ?_⟩
    · have hval := (FromContext_eq_none_iff ctx).mp hnone
      unfold AppendToContext
      rw [if_neg hlen]
      cases hv : ctx.Value CtxKey.mdContextKey with
      | none =>
        simp only [Heap.alloc, bind, Except.bind, hj, pure, Except.pure, NewContext]
      | some val =>
        cases val with
        | md p => exact absurd hv (hval p)
        | other v =>
          simp only [Heap.alloc, bind, Except.bind, hj, pure, Except.pure, NewContext]
    · simp [FromContext, NewContext, Context.Value]

omit [RuneTable] in
/-- C15. For a context to which nothing was attached under the key of this package, neither to
it nor to an ancestor, `FromContext` returns the nil pointer and `false`; it is a total function,
so it does not fail. -/
theorem FromContext_of_not_attached (ctx : Context) (hna : ctx.attached = false) :
    FromContext ctx = (none, false) := by
  simp [FromContext, Context.value_of_not_attached ctx hna]

/-! ## Claims on `Merge` against itself, its frame, and `Join` -/

/-- Closed form of `Merge` when the receiver is unlocked and is not a source. -/
theorem Merge_of_get {h : Heap} {md : Ptr} {o : MetaData} (srcs : List Ptr)
    (hmd : h[md]? = some o) (hl : o.locker = RWMutex.zero) (hd : o.data ≠ none)
    (hsrc : ∀ s ∈ srcs, s ≠ md ∧ h.Readable s) :
    MetaData.Merge h md srcs
      = Except.ok (h.set md { o with data := some (mergeData h srcs o.entries) }) := by
  unfold MetaData.Merge
  split
  · rename_i hlen
    have hnil : srcs = [] := List.length_eq_zero.mp hlen
    subst hnil
    simp only [mergeData, pure, Except.pure]
    rw [Heap.set_self_entries h md o hmd hd]
  · exact mergeLoop_of_get srcs hmd hl hd hsrc

/-- While an object is read-locked, merging it into itself blocks at the first key that has a
non-nil value. -/
theorem mergeKeys_self_deadlock {h : Heap} {md : Ptr} {o : MetaData} (ks : List String)
    (hmd : h[md]? = some o) (hrd : o.locker.readers ≠ 0)
    (hk : ∃ k ∈ ks, o.entries.index k ≠ Value.nil) :
    mergeKeys md md ks h = Except.error Fault.deadlock := by
  induction ks with
  | nil =>
    obtain ⟨k, hmem, _⟩ := hk
    cases hmem
  | cons k ks ih =>
    simp only [mergeKeys, Heap.deref_of_get hmd, bind, Except.bind]
    by_cases hv : o.entries.index k = Value.nil
    · simp only [hv, Set_nil]
      apply ih
      obtain ⟨k', hmem, hk'⟩ := hk
      rcases List.mem_cons.mp hmem with rfl | hmem'
      · exact absurd hv hk'
      · exact ⟨k', hmem', hk'⟩
    · simp only [Set_of_locked k hmd (Or.inr hrd) hv]

/-- Merging an object that holds a non-nil value into itself never returns. -/
theorem Merge_self_deadlock_of_nonNil {h : Heap} {md : Ptr} {o : MetaData}
    (hmd : h[md]? = some o) (hw : o.locker.writer = false)
    (hk : ∃ k ∈ o.entries.keys, o.entries.index k ≠ Value.nil) :
    MetaData.Merge h md [md] = Except.error Fault.deadlock := by
  have h1 := Heap.rlock_of_get hmd hw
  have hp1 := Heap.get_set_self
    { o with locker := { o.locker with readers := o.locker.readers + 1 } } hmd
  have h2 := mergeKeys_self_deadlock o.entries.keys hp1 (by simp) hk
  simp only [MetaData.Merge, List.length_singleton, Nat.succ_ne_zero, if_false, mergeLoop, h1,
    bind, Except.bind, Heap.deref_of_get hp1, MetaData.entries]
  simp only [MetaData.entries] at h2
  rw [h2]

theorem mergeFrom_mem_keys (src : GoMap) (ks : List String) (d : GoMap) (k : String)
    (hk : k ∈ d.keys) : k ∈ (mergeFrom src ks d).keys := by
  induction ks generalizing d with
  | nil => exact hk
  | cons k₀ ks ih =>
    simp only [mergeFrom]
    apply ih
    split
    · exact hk
    · exact (GoMap.mem_keys_put _ _ _ _).mpr (Or.inr hk)

theorem mergeData_mem_keys (h : Heap) (srcs : List Ptr) (d : GoMap) (k : String)
    (hk : k ∈ d.keys) : k ∈ (mergeData h srcs d).keys := by
  induction srcs generalizing d with
  | nil => exact hk
  | cons s srcs ih =>
    simp only [mergeData]
    cases hp : h[s]? with
    | none => exact hk
    | some o => exact ih _ (mergeFrom_mem_keys _ _ _ _ hk)

/-- C17, amended. For an unlocked receiver `o` at `md` whose map is not nil and sources `srcs`
that are objects of the heap other than the receiver, not write-locked and with lower-cased keys,
`md.Merge(srcs...)` returns and changes only the `data` of the receiver: every key that occurs in
no source has the entry it had, every key of the receiver is still a key, and every source is as
it was; and with no sources the heap is returned as it was. -/
theorem Merge_frame (h : Heap) (md : Ptr) (o : MetaData) (srcs : List Ptr)
    (hmd : h[md]? = some o) (hl : o.locker = RWMutex.zero) (hd : o.data ≠ none)
    (hsrc : ∀ s ∈ srcs, s ≠ md ∧
      ∃ os, h[s]? = some os ∧ os.locker.writer = false ∧ os.entries.LowerKeys) :
    ∃ d, MetaData.Merge h md srcs = Except.ok (h.set md { o with data := some d }) ∧
      (∀ k, (∀ s ∈ srcs, ∀ os, h[s]? = some os → k ∉ os.entries.keys) →
        d.get? k = o.entries.get? k) ∧
      (∀ k ∈ o.entries.keys, k ∈ d.keys) ∧
      (∀ s ∈ srcs, (h.set md { o with data := some d })[s]? = h[s]?) ∧
      (srcs = [] → MetaData.Merge h md srcs = Except.ok h) := by
  have hr : ∀ s ∈ srcs, s ≠ md ∧ h.Readable s := fun s hs =>
    let ⟨hne, os, hos, hw, _⟩ := hsrc s hs
    ⟨hne, os, hos, hw⟩
  have hlow : ∀ s ∈ srcs, ∀ os, h[s]? = some os → os.entries.LowerKeys := by
    intro s hs os hos
    obtain ⟨_, os', hos', _, hl'⟩ := hsrc s hs
    rw [hos] at hos'
    cases hos'
    exact hl'
  refine ⟨mergeData h srcs o.entries, Merge_of_get srcs hmd hl hd hr, ?_, ?_, ?_, ?_⟩
  · intro k hk
    exact mergeData_get?_of_nil h srcs o.entries k hlow
      (fun s hs os hos => index_of_not_mem (hk s hs os hos))
  · intro k hk
    exact mergeData_mem_keys h srcs o.entries k hk
  · intro s hs
    exact List.getElem?_set_ne (Ne.symm (hr s hs).1)
  · intro hnil
    subst hnil
    simp [MetaData.Merge, pure, Except.pure]

theorem mergeFrom_eq_joinFrom (src : GoMap) (ks : List String) (d : GoMap)
    (hks : ∀ k ∈ ks, k = ToLower k ∧ src.index k ≠ Value.nil) :
    mergeFrom src ks d = joinFrom src ks d := by
  induction ks generalizing d with
  | nil => rfl
  | cons k ks ih =>
    obtain ⟨hk, hv⟩ := hks k (List.mem_cons_self _ _)
    simp only [mergeFrom, joinFrom, hv, if_false, ← hk]
    exact ih _ (fun k' hk' => hks k' (List.mem_cons_of_mem _ hk'))

theorem index_ne_nil_of_noNil {m : GoMap} {k : String} (hnn : m.NoNil) (hk : k ∈ m.keys) :
    m.index k ≠ Value.nil := by
  obtain ⟨v, hv⟩ := (GoMap.mem_keys_iff m k).mp hk
  rw [index_of_get? hv]
  exact hnn (k, v) (GoMap.get?_mem m k v hv)

theorem mergeData_eq_joinData (h : Heap) (srcs : List Ptr) (d : GoMap)
    (hsrc : ∀ s ∈ srcs, ∀ os, h[s]? = some os → os.entries.LowerKeys ∧ os.entries.NoNil) :
    mergeData h srcs d = joinData h srcs d := by
  induction srcs generalizing d with
  | nil => rfl
  | cons s srcs ih =>
    simp only [mergeData, joinData]
    cases hp : h[s]? with
    | none => rfl
    | some os =>
      obtain ⟨hlow, hnn⟩ := hsrc s (List.mem_cons_self _ _) os hp
      simp only []
      rw [mergeFrom_eq_joinFrom os.entries os.entries.keys d
        (fun k hk => ⟨hlow k hk, index_ne_nil_of_noNil hnn hk⟩)]
      exact ih _ (fun s' hs' => hsrc s' (List.mem_cons_of_mem _ hs'))

/-- C18. For a readable object at `a` and readable sources `bs` with lower-cased keys and no nil
value, `Join(a, bs...)` returns a new object with exactly the `data` that the copy `c` has after
`c := a.Copy(); c.Merge(bs...)`. -/
theorem Join_eq_Copy_then_Merge (h : Heap) (a : Ptr) (bs : List Ptr) (ha : h.Readable a)
    (hbs : ∀ s ∈ bs, ∃ os, h[s]? = some os ∧ os.locker.writer = false ∧ os.entries.LowerKeys ∧
      os.entries.NoNil) :
    ∃ j c d, Join h (a :: bs)
        = Except.ok (h.length, h ++ [{ locker := RWMutex.zero, data := some j }]) ∧
      MetaData.Copy h a = Except.ok (h.length, h ++ [{ locker := RWMutex.zero, data := some c }]) ∧
      MetaData.Merge (h ++ [{ locker := RWMutex.zero, data := some c }]) h.length bs
        = Except.ok (h ++ [{ locker := RWMutex.zero, data := some d }]) ∧
      j = d := by
  obtain ⟨oa, hoa, hwa⟩ := ha
  have hra : ∀ s ∈ [a], h.Readable s := by
    intro s hs
    rw [List.mem_singleton.mp hs]
    exact ⟨oa, hoa, hwa⟩
  have hrall : ∀ s ∈ a :: bs, h.Readable s := by
    intro s hs
    rcases List.mem_cons.mp hs with rfl | hs'
    · exact ⟨oa, hoa, hwa⟩
    · obtain ⟨os, hos, hw, _⟩ := hbs s hs'
      exact ⟨os, hos, hw⟩
  have hc : (h ++ [{ locker := RWMutex.zero, data := some (joinData h [a] []) }])[h.length]?
      = some { locker := RWMutex.zero, data := some (joinData h [a] []) } :=
    List.getElem?_concat_length _ _
  have hsame : ∀ s ∈ bs,
      (h ++ [{ locker := RWMutex.zero, data := some (joinData h [a] []) }])[s]? = h[s]? := by
    intro s hs
    obtain ⟨os, hos, _⟩ := hbs s hs
    exact List.getElem?_append_left (Heap.lt_of_get hos)
  have hrm : ∀ s ∈ bs, s ≠ h.length ∧
      Heap.Readable (h ++ [{ locker := RWMutex.zero, data := some (joinData h [a] []) }]) s := by
    intro s hs
    obtain ⟨os, hos, hw, _⟩ := hbs s hs
    exact ⟨Nat.ne_of_lt (Heap.lt_of_get hos), os, by rw [hsame s hs]; exact hos, hw⟩
  have hm := Merge_of_get bs hc rfl (by simp) hrm
  simp only [MetaData.entries, Option.getD_some] at hm
  have hset : ∀ x : MetaData,
      List.set (h ++ [{ locker := RWMutex.zero, data := some (joinData h [a] []) }]) h.length x
        = h ++ [x] := by
    intro x
    rw [List.set_append_right _ _ (Nat.le_refl _)]
    simp
  rw [hset] at hm
  refine ⟨joinData h (a :: bs) [], joinData h [a] [], _, Join_of_readable h (a :: bs) hrall,
    by rw [MetaData.Copy, Join_of_readable h [a] hra], hm, ?_⟩
  rw [mergeData_congr h _ bs _ hsame, mergeData_eq_joinData h bs _
    (fun s hs os hos => by
      obtain ⟨os', hos', _, hlow, hnn⟩ := hbs s hs
      rw [hos] at hos'
      cases hos'
      exact ⟨hlow, hnn⟩)]
  simp [joinData, hoa]

/-! ## Claims on the algebra of `Join` -/

theorem joinFrom_self_get? (src out : GoMap) (k : String) (hlow : src.LowerKeys) :
    (joinFrom src src.keys out).get? k = if k ∈ src.keys then src.get? k else out.get? k := by
  rw [joinFrom_get?]
  by_cases hk : k ∈ src.keys
  · rw [if_pos hk, if_pos hk, ← hlow k hk, get?_eq_some_index hk]
  · rw [if_neg hk, if_neg hk]

theorem joinFrom_nodup (src : GoMap) (ks : List String) (out : GoMap) (hnd : out.keys.Nodup) :
    (joinFrom src ks out).keys.Nodup := by
  induction ks generalizing out with
  | nil => exact hnd
  | cons k ks ih => exact ih _ (GoMap.nodup_keys_put _ _ _ hnd)

theorem nodup_keys_nil : GoMap.keys ([] : GoMap) |>.Nodup := by
  simp [GoMap.keys]

/-- Two maps with pairwise distinct keys and the same entry for every key have the same
entries, up to the order of enumeration. -/
theorem sameData_perm (m₁ m₂ : GoMap) (h₁ : m₁.keys.Nodup) (h₂ : m₂.keys.Nodup)
    (hs : m₁.SameData m₂) : List.Perm m₁ m₂ := by
  have hn₁ : m₁.Nodup := List.Nodup.of_map _ h₁
  have hn₂ : m₂.Nodup := List.Nodup.of_map _ h₂
  rw [List.perm_ext_iff_of_nodup hn₁ hn₂]
  intro e
  obtain ⟨k, v⟩ := e
  constructor
  · intro he
    have := GoMap.get?_of_mem_nodup_keys m₁ k v h₁ he
    rw [hs k] at this
    exact GoMap.get?_mem m₂ k v this
  · intro he
    have := GoMap.get?_of_mem_nodup_keys m₂ k v h₂ he
    rw [← hs k] at this
    exact GoMap.get?_mem m₁ k v this

theorem put_of_get? (m : GoMap) (k : String) (v : Value) (hg : m.get? k = some v) :
    m.put k v = m := by
  induction m with
  | nil => simp [GoMap.get?] at hg
  | cons e t ih =>
    obtain ⟨k₀, v₀⟩ := e
    by_cases hk : k₀ = k
    · simp only [GoMap.get?, hk, if_true, Option.some.injEq] at hg
      simp [GoMap.put, hk, hg]
    · simp only [GoMap.get?, hk, if_false] at hg
      simp [GoMap.put, hk, ih hg]

/-- Copying again entries that the target already has changes nothing. -/
theorem joinFrom_of_get? (src : GoMap) (ks : List String) (out : GoMap)
    (hks : ∀ k ∈ ks, out.get? k = some (src.index (ToLower k))) : joinFrom src ks out = out := by
  induction ks with
  | nil => rfl
  | cons k ks ih =>
    simp only [joinFrom]
    rw [put_of_get? out k _ (hks k (List.mem_cons_self _ _))]
    exact ih (fun k' hk' => hks k' (List.mem_cons_of_mem _ hk'))

theorem Join_two (g : Heap) (p q : Ptr) (op oq : MetaData) (hp : g[p]? = some op)
    (hq : g[q]? = some oq) (hwp : op.locker.writer = false) (hwq : oq.locker.writer = false) :
    ∃ d, d = joinFrom oq.entries oq.entries.keys (joinFrom op.entries op.entries.keys []) ∧
      Join g [p, q] = Except.ok (g.length, g ++ [{ locker := RWMutex.zero, data := some d }]) := by
  refine ⟨_, rfl, ?_⟩
  have hr : ∀ s ∈ [p, q], g.Readable s := by
    intro s hs
    rcases List.mem_cons.mp hs with rfl | hs'
    · exact ⟨op, hp, hwp⟩
    · rw [List.mem_singleton.mp hs']
      exact ⟨oq, hq, hwq⟩
  rw [Join_of_readable g [p, q] hr]
  simp [joinData, hp, hq]

theorem Join_one (g : Heap) (p : Ptr) (op : MetaData) (hp : g[p]? = some op)
    (hwp : op.locker.writer = false) :
    ∃ d, d = joinFrom op.entries op.entries.keys [] ∧
      Join g [p] = Except.ok (g.length, g ++ [{ locker := RWMutex.zero, data := some d }]) := by
  refine ⟨_, rfl, ?_⟩
  have hr : ∀ s ∈ [p], g.Readable s := by
    intro s hs
    rw [List.mem_singleton.mp hs]
    exact ⟨op, hp, hwp⟩
  rw [Join_of_readable g [p] hr]
  simp [joinData, hp]

theorem Join_three (g : Heap) (p q r : Ptr) (op oq ot : MetaData) (hp : g[p]? = some op)
    (hq : g[q]? = some oq) (hr : g[r]? = some ot) (hwp : op.locker.writer = false)
    (hwq : oq.locker.writer = false) (hwr : ot.locker.writer = false) :
    ∃ d, d = joinFrom ot.entries ot.entries.keys
          (joinFrom oq.entries oq.entries.keys (joinFrom op.entries op.entries.keys [])) ∧
      Join g [p, q, r] = Except.ok (g.length, g ++ [{ locker := RWMutex.zero, data := some d }]) := by
  refine ⟨_, rfl, ?_⟩
  have hrd : ∀ s ∈ [p, q, r], g.Readable s := by
    intro s hs
    simp only [List.mem_cons, List.mem_singleton, List.not_mem_nil, or_false] at hs
    rcases hs with rfl | rfl | rfl
    · exact ⟨op, hp, hwp⟩
    · exact ⟨oq, hq, hwq⟩
    · exact ⟨ot, hr, hwr⟩
  rw [Join_of_readable g [p, q, r] hrd]
  simp [joinData, hp, hq, hr]

/-- C19. For readable objects at `a`, `b`, `c` with lower-cased keys:
`Join(Join(a, b), c)` has the very `data` of `Join(a, b, c)`, and `Join(a, Join(b, c))` has the
same `data` as a Go map (the same entry for every key, the same entries up to order);
`Join(a, a)` has the very `data` of `Join(a)`; and with `e := Join()`, both `Join(e, a)` and
`Join(a, e)` have the `data` of `a` as a Go map (the very same entries when the keys of `a` are
pairwise distinct). -/
theorem Join_assoc_idem_identity (h : Heap) (a b c : Ptr) (oa ob oc : MetaData)
    (ha : h[a]? = some oa) (hb : h[b]? = some ob) (hc : h[c]? = some oc)
    (hwa : oa.locker.writer = false) (hwb : ob.locker.writer = false)
    (hwc : oc.locker.writer = false)
    (hla : oa.entries.LowerKeys) (hlb : ob.entries.LowerKeys) (hlc : oc.entries.LowerKeys) :
    (∃ ab d₁ bc d₂ d₃ : GoMap,
      Join h [a, b] = Except.ok (h.length, h ++ [{ locker := RWMutex.zero, data := some ab }]) ∧
      Join (h ++ [{ locker := RWMutex.zero, data := some ab }]) [h.length, c]
        = Except.ok (h.length + 1, h ++ [{ locker := RWMutex.zero, data := some ab }]
            ++ [{ locker := RWMutex.zero, data := some d₁ }]) ∧
      Join h [b, c] = Except.ok (h.length, h ++ [{ locker := RWMutex.zero, data := some bc }]) ∧
      Join (h ++ [{ locker := RWMutex.zero, data := some bc }]) [a, h.length]
        = Except.ok (h.length + 1, h ++ [{ locker := RWMutex.zero, data := some bc }]
            ++ [{ locker := RWMutex.zero, data := some d₂ }]) ∧
      Join h [a, b, c] = Except.ok (h.length, h ++ [{ locker := RWMutex.zero, data := some d₃ }]) ∧
      d₁ = d₃ ∧ d₂.SameData d₃ ∧ List.Perm d₂ d₃) ∧
    (∃ d₄ d₅ : GoMap,
      Join h [a, a] = Except.ok (h.length, h ++ [{ locker := RWMutex.zero, data := some d₄ }]) ∧
      Join h [a] = Except.ok (h.length, h ++ [{ locker := RWMutex.zero, data := some d₅ }]) ∧
      d₄ = d₅) ∧
    (∃ d₆ d₇ : GoMap,
      Join h [] = Except.ok (h.length, h ++ [{ locker := RWMutex.zero, data := some [] }]) ∧
      Join (h ++ [{ locker := RWMutex.zero, data := some [] }]) [h.length, a]
        = Except.ok (h.length + 1, h ++ [{ locker := RWMutex.zero, data := some [] }]
            ++ [{ locker := RWMutex.zero, data := some d₆ }]) ∧
      Join (h ++ [{ locker := RWMutex.zero, data := some [] }]) [a, h.length]
        = Except.ok (h.length + 1, h ++ [{ locker := RWMutex.zero, data := some [] }]
            ++ [{ locker := RWMutex.zero, data := some d₇ }]) ∧
      d₆.SameData oa.entries ∧ d₇.SameData oa.entries ∧
      (oa.entries.keys.Nodup → d₆ = oa.entries ∧ d₇ = oa.entries)) := by
  have hext : ∀ (x : MetaData) (p : Ptr) (o : MetaData), h[p]? = some o →
      (h ++ [x])[p]? = some o := by
    intro x p o hp
    rw [List.getElem?_append_left (Heap.lt_of_get hp)]
    exact hp
  have hnew : ∀ x : MetaData, (h ++ [x])[h.length]? = some x :=
    fun x => List.getElem?_concat_length _ _
  have hlen : ∀ x : MetaData, (h ++ [x]).length = h.length + 1 := by
    intro x
    simp
  have hnil : GoMap.LowerKeys [] := lowerKeys_nil
  have hndnil : (GoMap.keys ([] : GoMap)).Nodup := by simp [GoMap.keys]
  refine ⟨?_, ?_, ?_⟩
  · obtain ⟨ab, hab, hjab⟩ := Join_two h a b oa ob ha hb hwa hwb
    obtain ⟨d₁, hd₁, hj₁⟩ := Join_two (h ++ [{ locker := RWMutex.zero, data := some ab }]) h.length c
      { locker := RWMutex.zero, data := some ab } oc (hnew _) (hext _ c oc hc) rfl hwc
    obtain ⟨bc, hbc, hjbc⟩ := Join_two h b c ob oc hb hc hwb hwc
    obtain ⟨d₂, hd₂, hj₂⟩ := Join_two (h ++ [{ locker := RWMutex.zero, data := some bc }]) a h.length
      oa { locker := RWMutex.zero, data := some bc } (hext _ a oa ha) (hnew _) hwa rfl
    obtain ⟨d₃, hd₃, hj₃⟩ := Join_three h a b c oa ob oc ha hb hc hwa hwb hwc
    rw [hlen] at hj₁ hj₂
    have hlab : ab.LowerKeys := by
      rw [hab]
      exact joinFrom_lowerKeys _ _ hlb (joinFrom_lowerKeys _ _ hla hnil)
    have hnab : ab.keys.Nodup := by
      rw [hab]
      exact joinFrom_nodup _ _ _ (joinFrom_nodup _ _ _ hndnil)
    have hlbc : bc.LowerKeys := by
      rw [hbc]
      exact joinFrom_lowerKeys _ _ hlc (joinFrom_lowerKeys _ _ hlb hnil)
    have h13 : d₁ = d₃ := by
      rw [hd₁, hd₃]
      simp only [MetaData.entries_mk]
      rw [joinFrom_self_eq ab hnab hlab, hab]
    have hs23 : d₂.SameData d₃ := by
      intro k
      rw [hd₂, hd₃]
      simp only [MetaData.entries_mk]
      rw [joinFrom_self_get? bc _ k hlbc, joinFrom_self_get? oc.entries _ k hlc,
        joinFrom_self_get? ob.entries _ k hlb, joinFrom_self_get? oa.entries _ k hla, hbc,
        joinFrom_self_get? oc.entries _ k hlc, joinFrom_self_get? ob.entries _ k hlb]
      simp only [joinFrom_mem_keys]
      have hk0 : k ∉ GoMap.keys [] := by simp [GoMap.keys]
      by_cases hC : k ∈ oc.entries.keys <;> by_cases hB : k ∈ ob.entries.keys <;>
        simp [hC, hB, hk0]
    have hn₂ : d₂.keys.Nodup := by
      rw [hd₂]
      exact joinFrom_nodup _ _ _ (joinFrom_nodup _ _ _ hndnil)
    have hn₃ : d₃.keys.Nodup := by
      rw [hd₃]
      exact joinFrom_nodup _ _ _ (joinFrom_nodup _ _ _ (joinFrom_nodup _ _ _ hndnil))
    exact ⟨ab, d₁, bc, d₂, d₃, hjab, hj₁, hjbc, hj₂, hj₃, h13, hs23,
      sameData_perm d₂ d₃ hn₂ hn₃ hs23⟩
  · obtain ⟨d₄, hd₄, hj₄⟩ := Join_two h a a oa oa ha ha hwa hwa
    obtain ⟨d₅, hd₅, hj₅⟩ := Join_one h a oa ha hwa
    refine ⟨d₄, d₅, hj₄, hj₅, ?_⟩
    rw [hd₄, hd₅]
    apply joinFrom_of_get?
    intro k hk
    rw [joinFrom_get?, if_pos hk]
  · obtain ⟨d₆, hd₆, hj₆⟩ := Join_two (h ++ [{ locker := RWMutex.zero, data := some [] }]) h.length a
      { locker := RWMutex.zero, data := some [] } oa (hnew _) (hext _ a oa ha) rfl hwa
    obtain ⟨d₇, hd₇, hj₇⟩ := Join_two (h ++ [{ locker := RWMutex.zero, data := some [] }]) a h.length
      oa { locker := RWMutex.zero, data := some [] } (hext _ a oa ha) (hnew _) hwa rfl
    rw [hlen] at hj₆ hj₇
    have h6 : d₆ = joinFrom oa.entries oa.entries.keys [] := by
      rw [hd₆]
      rfl
    have h7 : d₇ = joinFrom oa.entries oa.entries.keys [] := by
      rw [hd₇]
      rfl
    refine ⟨d₆, d₇, ?_, hj₆, hj₇, ?_, ?_, ?_⟩
    · rw [Join_of_readable h [] (fun s hs => by cases hs)]
      rfl
    · rw [h6]
      exact joinFrom_self_sameData oa.entries hla
    · rw [h7]
      exact joinFrom_self_sameData oa.entries hla
    · intro hnd
      rw [h6, h7]
      exact ⟨joinFrom_self_eq oa.entries hnd hla, joinFrom_self_eq oa.entries hnd hla⟩

end Generic

/-! ## Evaluations on examples

The statements of this section are closed: they evaluate the definitions on concrete heaps and
arguments whose keys are ASCII, with the ASCII rows of the table (`asciiTable`). -/

/-- Witness of C1: the call `Pairs("Header", "42", "HEADER", 43, "other", nil)`. -/
theorem Pairs_len_and_get_witness :
    ∃ data, Pairs [] [Value.str "Header", Value.str "42", Value.str "HEADER", Value.int 43,
          Value.str "other", Value.nil]
        = Except.ok (0, [] ++ [{ locker := RWMutex.zero, data := some data }]) ∧
      MetaData.Len ([] ++ [{ locker := RWMutex.zero, data := some data }]) 0 = Except.ok 2 ∧
      MetaData.Get ([] ++ [{ locker := RWMutex.zero, data := some data }]) 0 "header"
        = Except.ok (Value.int 43, [] ++ [{ locker := RWMutex.zero, data := some data }]) := by
  obtain ⟨data, h1, h2, h3⟩ := Pairs_len_and_get []
    [Value.str "Header", Value.str "42", Value.str "HEADER", Value.int 43, Value.str "other",
      Value.nil] (by decide) (by decide)
  refine ⟨data, h1, ?_, ?_⟩
  · exact h2.trans (congrArg Except.ok (by decide))
  · exact h3 [Value.str "Header", Value.str "42"] "HEADER" (Value.int 43)
      [Value.str "other", Value.nil] rfl (by decide) (by decide) "header" (by decide)

/-- Keys outside ASCII, with a table that has the row `É` to `é`: `Pairs("É", 1, "é", 2)` and
`New` of the map with the entries `"É": 1` and `"é": 2` hold the one key `"é"` with the value
written last; `Get("É")` returns it; and `Set("É", 3)` overwrites it. -/
theorem nonASCII_keys_example :
    @Pairs latinTable [] [Value.str "É", Value.int 1, Value.str "é", Value.int 2]
        = Except.ok (0, [{ locker := RWMutex.zero, data := some [("é", Value.int 2)] }]) ∧
      @New latinTable [] [("É", Value.int 1), ("é", Value.int 2)]
        = (0, [{ locker := RWMutex.zero, data := some [("é", Value.int 2)] }]) ∧
      MetaData.Len [{ locker := RWMutex.zero, data := some [("é", Value.int 2)] }] 0 = Except.ok 1 ∧
      @MetaData.Get latinTable [{ locker := RWMutex.zero, data := some [("é", Value.int 2)] }] 0 "É"
        = Except.ok (Value.int 2, [{ locker := RWMutex.zero, data := some [("é", Value.int 2)] }]) ∧
      @MetaData.Set latinTable [{ locker := RWMutex.zero, data := some [("é", Value.int 2)] }] 0 "É"
          (Value.int 3)
        = Except.ok [{ locker := RWMutex.zero, data := some [("é", Value.int 3)] }] := by
  decide

/-- Witness of C2: three arguments, one of them `nil`. -/
theorem Pairs_odd_panics_witness :
    [Value.str "k", Value.nil, Value.int 7].length % 2 = 1 ∧
    Pairs [] [Value.str "k", Value.nil, Value.int 7] = Except.error (Fault.oddPairs 3) :=
  ⟨by decide, Pairs_odd_panics [] [Value.str "k", Value.nil, Value.int 7] (by decide)⟩

/-- Witness of C3: a `nil` at the second key position makes the call fail. -/
theorem Pairs_fails_iff_nonstring_key_witness :
    [Value.str "a", Value.int 1, Value.nil, Value.int 2].length % 2 = 0 ∧
    ∃ f, Pairs [] [Value.str "a", Value.int 1, Value.nil, Value.int 2] = Except.error f :=
  ⟨by decide,
    (Pairs_fails_iff_nonstring_key [] [Value.str "a", Value.int 1, Value.nil, Value.int 2]
      (by decide)).1.mpr ⟨2, by decide, by decide, by decide⟩⟩

/-- The ASCII rows of the table are idempotent. -/
theorem asciiTable_idempotent : LowerIdempotent := by
  intro c
  show Char.toLower (Char.toLower c) = Char.toLower c
  unfold Char.toLower
  by_cases h : c.toNat ≥ 65 ∧ c.toNat ≤ 90
  · simp only [h, and_self, if_true]
    have := toNat_ofNat_of_lt (c.toNat + 32) (by omega)
    rw [if_neg]
    rw [this]; omega
  · simp only [h, if_false]

/-- Witness of C4: a program that makes each kind of call with mixed-case keys. -/
theorem lowerKeys_invariant_witness :
    runCalls mixedCaseProgram [] = Except.ok mixedCaseHeap ∧
      ∀ o ∈ mixedCaseHeap, ∀ k ∈ o.entries.keys, (∃ k₀, k = ToLower k₀) ∧ k = ToLower k :=
  ⟨by decide, fun o ho k hk =>
    ⟨(lowerKeys_invariant mixedCaseProgram mixedCaseHeap (by decide) o ho k hk).1,
      (lowerKeys_invariant mixedCaseProgram mixedCaseHeap (by decide) o ho k hk).2
        asciiTable_idempotent⟩⟩

/-- C5 does not hold of the code: `Pairs("k", nil)` returns an object whose `data` pairs the key
`"k"` with `nil`, and so does `New` of the map with the one entry `"k": nil`; the program of
the one call `Pairs("k", nil)` ends with a heap that breaks the invariant. The writing function
`Set` does otherwise: `Set("k", nil)` on an empty object stores nothing. -/
theorem Pairs_and_New_store_nil :
    Pairs [] [Value.str "k", Value.nil]
        = Except.ok (0, [{ locker := RWMutex.zero, data := some [("k", Value.nil)] }]) ∧
      New [] [("k", Value.nil)] = (0, [{ locker := RWMutex.zero, data := some [("k", Value.nil)] }]) ∧
      runCalls [Call.pairs [Value.str "k", Value.nil]] []
        = Except.ok [{ locker := RWMutex.zero, data := some [("k", Value.nil)] }] ∧
      ¬ GoMap.NoNil [("k", Value.nil)] ∧
      MetaData.Set [{ locker := RWMutex.zero, data := some [] }] 0 "k" Value.nil
        = Except.ok [{ locker := RWMutex.zero, data := some [] }] := by
  decide

/-- C6 fails as stated: the zero value `MetaData{}` has no stored key, so it satisfies the
lower-case key invariant; `Set("k", "v")` on it panics on the write to the nil map, and `Get("k")`
returns `nil`, not `"v"`. -/
theorem Set_on_zero_value_counterexample :
    GoMap.LowerKeys (MetaData.entries MetaData.zeroValue) ∧
      MetaData.Set zeroValueHeap 0 "k" (Value.str "v") = Except.error Fault.nilMapWrite ∧
      MetaData.Get zeroValueHeap 0 "k" = Except.ok (Value.nil, zeroValueHeap) ∧
      MetaData.Len zeroValueHeap 0 = Except.ok 0 := by
  refine ⟨?_, by decide, by decide, by decide⟩
  intro k hk
  cases hk

/-- Witness of C6: `Set("Other-Key", "1")` on the first object of `TestSet`. -/
theorem Set_stores_under_lower_key_witness :
    ∃ d, MetaData.Set testSetHeap 0 "Other-Key" (Value.str "1")
        = Except.ok (testSetHeap.set 0 { locker := RWMutex.zero, data := some d }) ∧
      MetaData.Get (testSetHeap.set 0 { locker := RWMutex.zero, data := some d }) 0 "OTHER-KEY"
        = Except.ok (Value.str "1", testSetHeap.set 0 { locker := RWMutex.zero, data := some d }) ∧
      d.get? "other-key" = some (Value.str "1") ∧
      MetaData.Len (testSetHeap.set 0 { locker := RWMutex.zero, data := some d }) 0 = Except.ok 2 := by
  obtain ⟨d, h1, h2, h3, _, _, h6⟩ := Set_stores_under_lower_key testSetHeap 0
    { locker := RWMutex.zero,
      data := some [("my-optional-header", Value.str "42"), ("other-key", Value.str "999")] }
    "Other-Key" (Value.str "1") (by decide) rfl (by decide) (by decide)
  exact ⟨d, h1, h2 "OTHER-KEY" (by decide), h3, h6⟩

/-- Witness of C8: `Get("HEADER")` and `Get("missing")` on the object of `TestGet`. -/
theorem Get_returns_stored_witness :
    MetaData.Get testGetHeap 0 "HEADER" = Except.ok (Value.str "44", testGetHeap) ∧
    MetaData.Get testGetHeap 0 "Header" = MetaData.Get testGetHeap 0 "HEADER" := by
  obtain ⟨⟨v, h1, h2, _⟩, h4⟩ := Get_returns_stored testGetHeap 0
    { locker := RWMutex.zero, data := some [("header", Value.str "44"), ("other", Value.str "1")] }
    "HEADER" (by decide) rfl
  have hv : v = Value.str "44" := h2 (Value.str "44") (by decide)
  subst hv
  exact ⟨h1, h4 "Header" (by decide)⟩

/-- Witness of C9: `Join(a, b, c)` with `a = Pairs("foo", "bar")`, `b = Pairs("foo", "baz")` and
`c = Pairs("zip", nil)`. -/
theorem Join_union_last_wins_witness :
    ∃ out, Join testJoinHeap [0, 1, 2]
        = Except.ok (3, testJoinHeap ++ [{ locker := RWMutex.zero, data := some out }]) ∧
      out.get? "foo" = some (Value.str "baz") ∧ out.get? "zip" = some Value.nil := by
  obtain ⟨out, h1, _, _, h4, _⟩ := Join_union_last_wins testJoinHeap [0, 1, 2] (by decide)
  refine ⟨out, h1, ?_, ?_⟩
  · exact h4 [0] 1 [2] { locker := RWMutex.zero, data := some [("foo", Value.str "baz")] } "foo"
      rfl (by decide) (by decide) (by decide)
  · exact h4 [0, 1] 2 [] { locker := RWMutex.zero, data := some [("zip", Value.nil)] } "zip"
      rfl (by decide) (by decide) (by decide)

/-- C10 fails as stated: the receiver `Pairs("key", "val")` is merged with the single source
`Pairs("key", nil)`. The call returns; the key `"key"` is present in the last (and only) source,
with the value `nil`; the receiver does not have that value for it, it still has `"val"`.
And for the zero value `MetaData{}` as receiver and the source `Pairs("key", "val")`, the call
panics on the write to the nil map, the receiver holding no key. -/
theorem Merge_last_source_counterexample :
    Pairs [] [Value.str "key", Value.str "val"]
        = Except.ok (0, [{ locker := RWMutex.zero, data := some [("key", Value.str "val")] }]) ∧
      Pairs [{ locker := RWMutex.zero, data := some [("key", Value.str "val")] }]
        [Value.str "key", Value.nil] = Except.ok (1, mergeNilHeap) ∧
      MetaData.Merge mergeNilHeap 0 [1] = Except.ok mergeNilHeap ∧
      (mergeNilHeap[1]?.map fun o => o.entries.get? "key") = some (some Value.nil) ∧
      MetaData.Get mergeNilHeap 0 "key" ≠ Except.ok (Value.nil, mergeNilHeap) ∧
      MetaData.Get mergeNilHeap 0 "key" = Except.ok (Value.str "val", mergeNilHeap) ∧
      MetaData.Merge zeroMergeHeap 0 [1] = Except.error Fault.nilMapWrite ∧
      MetaData.Get zeroMergeHeap 0 "key" = Except.ok (Value.nil, zeroMergeHeap) := by
  decide

/-- Witness of C10 amended: the receiver `Pairs("key", "val")` merged with the sources
`Pairs("key", "newVal")` and `Pairs("key", nil)`, in this order, ends with `"newVal"`. -/
theorem Merge_last_nonNil_wins_witness :
    ∃ d, MetaData.Merge testMergeHeap 0 [1, 2]
        = Except.ok (testMergeHeap.set 0 { locker := RWMutex.zero, data := some d }) ∧
      MetaData.Get (testMergeHeap.set 0 { locker := RWMutex.zero, data := some d }) 0 "key"
        = Except.ok (Value.str "newVal",
            testMergeHeap.set 0 { locker := RWMutex.zero, data := some d }) := by
  obtain ⟨d, h1, h2⟩ := Merge_last_nonNil_wins testMergeHeap 0
    { locker := RWMutex.zero, data := some [("key", Value.str "val")] } [1, 2] (by decide) rfl
    (by decide) (by decide)
  exact ⟨d, h1, h2 [] 1 [2] { locker := RWMutex.zero, data := some [("key", Value.str "newVal")] }
    "key" (Value.str "newVal") rfl (by decide) (by decide) (by decide) (by decide)⟩

/-- Witness of C11: the run of `TestCopy`, `orig.Set("key", "baz")` after the copy. -/
theorem Copy_independent_of_later_Set_witness :
    MetaData.Copy testCopyHeap 0
        = Except.ok (1, testCopyHeap ++ [{ locker := RWMutex.zero, data := some [("key", Value.str "val")] }]) ∧
      ∃ h₂, MetaData.Set
          (testCopyHeap ++ [{ locker := RWMutex.zero, data := some [("key", Value.str "val")] }]) 0
          "key" (Value.str "baz") = Except.ok h₂ ∧
        MetaData.Get h₂ 0 "key" = Except.ok (Value.str "baz", h₂) ∧
        MetaData.Get h₂ 1 "key" = Except.ok (Value.str "val", h₂) := by
  obtain ⟨c, h1, _, h3, _, h4⟩ := Copy_independent_of_later_Set testCopyHeap 0
    { locker := RWMutex.zero, data := some [("key", Value.str "val")] } (by decide) rfl (by decide)
  have hc : c = [("key", Value.str "val")] := h3 (by decide)
  subst hc
  obtain ⟨h₂, hs, _, hg⟩ := (h4 "key" (Value.str "baz")).resolve_right
    (fun hnil => absurd hnil.1 (by decide))
  refine ⟨h1, h₂, hs, ?_, hg "key"⟩
  have hh : h₂ = [{ locker := RWMutex.zero, data := some [("key", Value.str "baz")] },
      { locker := RWMutex.zero, data := some [("key", Value.str "val")] }] :=
    Except.ok.inj (hs.symm.trans (by decide))
  subst hh
  decide

/-- Witness of C20: `Set("B", 2)` then `Set("b", 3)` on `Pairs("a", 1)`. -/
theorem Set_last_writer_wins_and_commutes_witness :
    ∃ g₁, MetaData.Set twoSetsHeap 0 "B" (Value.int 2) = Except.ok g₁ ∧
      MetaData.Set g₁ 0 "b" (Value.int 3) = MetaData.Set twoSetsHeap 0 "b" (Value.int 3) := by
  obtain ⟨g₁, g₂, d₁₂, d₂₁, d₂, h1, h2, h3, _, h5, h6, _⟩ :=
    (Set_last_writer_wins_and_commutes twoSetsHeap 0
      { locker := RWMutex.zero, data := some [("a", Value.int 1)] } "B" "b" (Value.int 2) (Value.int 3)
      (by decide) rfl (by decide) (by decide)).resolve_right (fun hnil => absurd hnil.1 (by decide))
  refine ⟨g₁, h1, ?_⟩
  rw [h2, h3, h5, h6 (by decide)]

/-- Witness of C12: `New` of the map with the entries `"Foo": 1` and `"BAR": nil`. -/
theorem New_lowercases_and_last_wins_witness :
    ∃ d, New [] [("Foo", Value.int 1), ("BAR", Value.nil)]
        = (0, [] ++ [{ locker := RWMutex.zero, data := some d }]) ∧
      d.get? "foo" = some (Value.int 1) ∧
      MetaData.Len ([] ++ [{ locker := RWMutex.zero, data := some d }]) 0 = Except.ok 2 := by
  obtain ⟨d, h1, _, _, h4, h5⟩ :=
    New_lowercases_and_last_wins [] [("Foo", Value.int 1), ("BAR", Value.nil)]
  exact ⟨d, h1, h4 [] "Foo" (Value.int 1) [("BAR", Value.nil)] rfl (by decide),
    (h5 (by decide)).1⟩

/-- C13 fails as stated: the zero value `MetaData{}` is attached to the empty context.
`FromContext` returns the attached pointer; `Set("foo", "baz")` through that pointer panics on
the write to the nil map, and `Get("foo")` through the pointer of a later `FromContext` returns
`nil`: the `Set` is not seen. -/
theorem FromContext_zero_value_counterexample :
    FromContext (NewContext Context.background 0) = (some 0, true) ∧
      MetaData.Set zeroValueHeap 0 "foo" (Value.str "baz") = Except.error Fault.nilMapWrite ∧
      MetaData.Get zeroValueHeap 0 "foo" = Except.ok (Value.nil, zeroValueHeap) := by
  decide

/-- Witness of C13 amended: the run of `TestFromContext`. -/
theorem FromContext_NewContext_same_instance_witness :
    FromContext (NewContext Context.background 0) = (some 0, true) ∧
    ∃ h', MetaData.Set testContextHeap 0 "foo" (Value.str "baz") = Except.ok h' ∧
      MetaData.Get h' 0 "foo" = Except.ok (Value.str "baz", h') := by
  obtain ⟨h1, h2⟩ := FromContext_NewContext_same_instance testContextHeap Context.background 0
    { locker := RWMutex.zero, data := some [("foo", Value.str "bar")] } "foo" (Value.str "baz")
    (by decide) rfl (by decide) (by decide)
  obtain ⟨h', hs, hg⟩ := h2 0 (Or.inr rfl)
  exact ⟨h1, h', hs, hg 0 (by decide)⟩

/-- Witness of C14: the run of `TestAppendToContext`. -/
theorem AppendToContext_joins_into_new_instance_witness :
    ∃ j, AppendToContext testAppendHeap (NewContext Context.background 0) [1]
        = Except.ok (NewContext (NewContext Context.background 0) 2,
            testAppendHeap ++ [{ locker := RWMutex.zero, data := some j }]) ∧
      j = [("foo", Value.str "baz")] := by
  obtain ⟨j, h1, h2, _⟩ := (AppendToContext_joins_into_new_instance testAppendHeap
    (NewContext Context.background 0) [1] (by decide)).2.1 (by decide) 0 (by decide) (by decide)
  refine ⟨j, h2, ?_⟩
  have := h1.symm.trans (show Join testAppendHeap [0, 1] = Except.ok (2, testAppendHeap ++
    [{ locker := RWMutex.zero, data := some [("foo", Value.str "baz")] }]) by decide)
  have hinj := Except.ok.inj this
  simp only [Prod.mk.injEq, List.append_cancel_left_eq, List.cons.injEq, MetaData.mk.injEq,
    Option.some.injEq, true_and, and_true] at hinj
  exact hinj.2

/-- Witness of C15: a context that carries a value of another package only. -/
theorem FromContext_of_not_attached_witness :
    foreignContext.attached = false ∧ FromContext foreignContext = (none, false) :=
  ⟨by decide, FromContext_of_not_attached foreignContext (by decide)⟩

/-- C16 does not hold of the code: for `md := Pairs("k", "v")`, the call `md.Merge(md)` takes the
read lock of `md` and then, inside `md.Set("k", "v")`, asks for the write lock of `md` while the
read lock is still held; the call never returns. -/
theorem Merge_into_itself_deadlocks :
    Pairs [] [Value.str "k", Value.str "v"] = Except.ok (0, selfMergeHeap) ∧
      MetaData.Merge selfMergeHeap 0 [0] = Except.error Fault.deadlock := by
  decide

/-- C17 fails as stated: the receiver holds `"foo": 1`, the one source, another object, holds
`"Foo": 2`. The key `"foo"` occurs in no source, and `Merge` writes the value of `"Foo"` under
`ToLower("Foo")`: the receiver ends with `"foo": 2`. And for the zero value `MetaData{}` as
receiver the call panics on the write to the nil map. -/
theorem Merge_frame_counterexample :
    (caseMergeHeap[1]?.map fun o => decide ("foo" ∈ o.entries.keys)) = some false ∧
      MetaData.Get caseMergeHeap 0 "foo" = Except.ok (Value.int 1, caseMergeHeap) ∧
      MetaData.Merge caseMergeHeap 0 [1]
        = Except.ok [{ locker := RWMutex.zero, data := some [("foo", Value.int 2)] },
            { locker := RWMutex.zero, data := some [("Foo", Value.int 2)] }] ∧
      MetaData.Merge zeroMergeHeap 0 [1] = Except.error Fault.nilMapWrite := by
  decide

/-- Witness of C17 amended: the receiver `Pairs("own", 1, "shared", 2)` merged with `Pairs("shared", 3)`
and `Pairs("extra", 4)` keeps `"own"`. -/
theorem Merge_frame_witness :
    ∃ d, MetaData.Merge mergeFrameHeap 0 [1, 2]
        = Except.ok (mergeFrameHeap.set 0 { locker := RWMutex.zero, data := some d }) ∧
      d.get? "own" = some (Value.int 1) ∧ "shared" ∈ d.keys := by
  obtain ⟨d, h1, h2, h3, _⟩ := Merge_frame mergeFrameHeap 0
    { locker := RWMutex.zero, data := some [("own", Value.int 1), ("shared", Value.int 2)] } [1, 2]
    (by decide) rfl (by decide) (by decide)
  exact ⟨d, h1, (h2 "own" (by decide)).trans (by decide), h3 "shared" (by decide)⟩

/-- Witness of C18: `Join(a, b)` against `c := a.Copy(); c.Merge(b)` for
`a = Pairs("a", 1, "b", 2)` and `b = Pairs("b", 3, "c", 4)`. -/
theorem Join_eq_Copy_then_Merge_witness :
    ∃ j c, Join joinMergeHeap [0, 1]
        = Except.ok (2, joinMergeHeap ++ [{ locker := RWMutex.zero, data := some j }]) ∧
      MetaData.Copy joinMergeHeap 0
        = Except.ok (2, joinMergeHeap ++ [{ locker := RWMutex.zero, data := some c }]) ∧
      MetaData.Merge (joinMergeHeap ++ [{ locker := RWMutex.zero, data := some c }]) 2 [1]
        = Except.ok (joinMergeHeap ++ [{ locker := RWMutex.zero, data := some j }]) := by
  obtain ⟨j, c, d, h1, h2, h3, h4⟩ := Join_eq_Copy_then_Merge joinMergeHeap 0 [1] (by decide)
    (by
      intro s hs
      rw [List.mem_singleton.mp hs]
      exact ⟨{ locker := RWMutex.zero, data := some [("b", Value.int 3), ("c", Value.int 4)] },
        by decide, rfl, by decide, by decide⟩)
  subst h4
  exact ⟨j, c, h1, h2, h3⟩

/-- Witness of C19: the three maps `Pairs("x", 1, "y", 2)`, `Pairs("y", 3, "z", 4)` and
`Pairs("z", 5, "x", 6)`. -/
theorem Join_assoc_idem_identity_witness :
    ∃ bc d₂ d₃ : GoMap,
      Join joinAssocHeap [1, 2]
        = Except.ok (3, joinAssocHeap ++ [{ locker := RWMutex.zero, data := some bc }]) ∧
      Join (joinAssocHeap ++ [{ locker := RWMutex.zero, data := some bc }]) [0, 3]
        = Except.ok (4, joinAssocHeap ++ [{ locker := RWMutex.zero, data := some bc }]
            ++ [{ locker := RWMutex.zero, data := some d₂ }]) ∧
      Join joinAssocHeap [0, 1, 2]
        = Except.ok (3, joinAssocHeap ++ [{ locker := RWMutex.zero, data := some d₃ }]) ∧
      d₂.SameData d₃ ∧ List.Perm d₂ d₃ := by
  obtain ⟨⟨_, _, bc, d₂, d₃, _, _, h3, h4, h5, _, h7, h8⟩, _, _⟩ :=
    Join_assoc_idem_identity joinAssocHeap 0 1 2
      { locker := RWMutex.zero, data := some [("x", Value.int 1), ("y", Value.int 2)] }
      { locker := RWMutex.zero, data := some [("y", Value.int 3), ("z", Value.int 4)] }
      { locker := RWMutex.zero, data := some [("z", Value.int 5), ("x", Value.int 6)] }
      (by decide) (by decide) (by decide) rfl rfl rfl (by decide) (by decide) (by decide)
  exact ⟨bc, d₂, d₃, h3, h4, h5, h7, h8⟩

end metadata
